import Mathlib

/-!
Verification development for `src/category/mpt/bench/mpt_bench.cpp`
(MonadDB MPT benchmark driver).

Shallow embedding conventions:
* `monad::byte_string` is `List Nat` (one `Nat` per byte, always reduced `% 256`
  where the source writes a byte);
* `std::map<byte_string, _>` is a sorted association list ordered by the
  lexicographic order on `List Nat` (Mathlib's `LinearOrder (List α)`), the
  same order as C++ `operator<` on `basic_string<unsigned char>`;
* `monad::small_prng r(42)` is threaded as an abstract draw sequence
  `f : Nat → Nat` together with a draw counter: `r32 f k` is the value of the
  `k`-th call to `r()` (truncated to 32 bits as `r()` returns `uint32_t`);
* the C++ `%` on a zero divisor is undefined behaviour, so every modulus whose
  divisor can be zero goes through `cmod`, which returns `none` there; the
  generation pipeline is `Option`-valued for that reason alone.
-/

namespace MptBench

/-- `monad::byte_string`: a sequence of bytes. -/
abbrev ByteStr := List Nat

/-! ### `std::map` as a sorted association list -/

/-- `m[k] = v` on a `std::map` modelled as a sorted association list:
insert at the ordered position, overwriting an entry with an equal key. -/
def mapInsert (k : ByteStr) (v : α) : List (ByteStr × α) → List (ByteStr × α)
  | [] => [(k, v)]
  | (k', v') :: rest =>
    if k < k' then (k, v) :: (k', v') :: rest
    else if k = k' then (k, v) :: rest
    else (k', v') :: mapInsert k v rest

/-- `m.find(k)` on the association-list map. -/
def mapLookup (k : ByteStr) : List (ByteStr × α) → Option α
  | [] => none
  | (k', v') :: rest => if k = k' then some v' else mapLookup k rest

/-- The key sequence of the map, in structural (i.e. iteration) order. -/
def mapKeys (m : List (ByteStr × α)) : List ByteStr := m.map Prod.fst

/-- The map invariant: keys strictly ascending in byte-lexicographic order.
(An `abbrev` so decidability is found by instance search on concrete maps.) -/
abbrev SortedMap (m : List (ByteStr × α)) : Prop := List.Pairwise (· < ·) (mapKeys m)

theorem mapLookup_insert_self (k : ByteStr) (v : α) :
    ∀ m : List (ByteStr × α), mapLookup k (mapInsert k v m) = some v := by
  intro m
  induction m with
  | nil => simp [mapInsert, mapLookup]
  | cons hd tl ih =>
    obtain ⟨k', v'⟩ := hd
    by_cases h1 : k < k'
    · simp [mapInsert, h1, mapLookup]
    · by_cases h2 : k = k'
      · simp [mapInsert, h1, h2, mapLookup]
      · simp [mapInsert, h1, h2, mapLookup, ih]

theorem mem_mapKeys_insert {k : ByteStr} {v : α} :
    ∀ {m : List (ByteStr × α)} {x : ByteStr},
      x ∈ mapKeys (mapInsert k v m) → x = k ∨ x ∈ mapKeys m := by
  intro m
  induction m with
  | nil =>
    intro x hx
    rw [mapInsert, mapKeys] at hx
    simp only [List.map_cons, List.map_nil, List.mem_singleton] at hx
    exact Or.inl hx
  | cons hd tl ih =>
    obtain ⟨k', v'⟩ := hd
    intro x hx
    by_cases h1 : k < k'
    · rw [mapInsert, if_pos h1, mapKeys] at hx
      rw [mapKeys]
      simp only [List.map_cons, List.mem_cons] at hx ⊢
      tauto
    · by_cases h2 : k = k'
      · rw [mapInsert, if_neg h1, if_pos h2, mapKeys] at hx
        rw [mapKeys]
        simp only [List.map_cons, List.mem_cons] at hx ⊢
        tauto
      · rw [mapInsert, if_neg h1, if_neg h2, mapKeys] at hx
        rw [mapKeys]
        simp only [List.map_cons, List.mem_cons] at hx ⊢
        rcases hx with hx | hx
        · exact Or.inr (Or.inl hx)
        · rcases ih hx with h | h
          · exact Or.inl h
          · exact Or.inr (Or.inr h)

theorem sortedMap_insert {k : ByteStr} {v : α} :
    ∀ {m : List (ByteStr × α)}, SortedMap m → SortedMap (mapInsert k v m) := by
  intro m
  induction m with
  | nil => intro _; simp [mapInsert, SortedMap, mapKeys]
  | cons hd tl ih =>
    obtain ⟨k', v'⟩ := hd
    intro hs
    rw [SortedMap, mapKeys] at hs
    simp only [List.map_cons, List.pairwise_cons] at hs
    obtain ⟨hk', htl⟩ := hs
    by_cases h1 : k < k'
    · rw [SortedMap, mapInsert]
      simp only [if_pos h1, mapKeys, List.map_cons, List.pairwise_cons]
      refine ⟨?_, ?_, htl⟩
      · intro x hx
        simp only [List.mem_cons] at hx
        rcases hx with rfl | hx
        · exact h1
        · exact lt_trans h1 (hk' x hx)
      · exact hk'
    · by_cases h2 : k = k'
      · subst h2
        rw [SortedMap, mapInsert, if_neg h1, if_pos rfl, mapKeys]
        simp only [List.map_cons, List.pairwise_cons]
        exact ⟨hk', htl⟩
      · have hk'k : k' < k := by
          rcases lt_trichotomy k k' with h | h | h
          · exact absurd h h1
          · exact absurd h h2
          · exact h
        rw [SortedMap, mapInsert]
        simp only [if_neg h1, if_neg h2, mapKeys, List.map_cons, List.pairwise_cons]
        constructor
        · intro x hx
          rcases mem_mapKeys_insert (m := tl) (x := x) hx with rfl | hx
          · exact hk'k
          · exact hk' x hx
        · exact ih htl

/-- Latest-write-wins: inserting twice at the same key leaves the later value. -/
theorem mapLookup_insert_insert (k : ByteStr) (v₁ v₂ : α) (m : List (ByteStr × α)) :
    mapLookup k (mapInsert k v₂ (mapInsert k v₁ m)) = some v₂ :=
  mapLookup_insert_self k v₂ _

/-- A strictly ascending key sequence has no duplicates. -/
theorem SortedMap.nodup_keys {m : List (ByteStr × α)} (h : SortedMap m) :
    (mapKeys m).Nodup :=
  List.Pairwise.imp (fun hlt => ne_of_lt hlt) h

/-! ### Identity derivation (`hash_string`, lines 42–45) -/

/-- Modelled from the spec: `monad::keccak256` (external library, not under
`src/`) — `hash_string` derives a 32-byte identifier from a synthetic string.
Only determinism and the 32-byte width matter to the driver, so the mixing
function is a simple deterministic byte fold standing in for keccak. -/
def hash_string (s : String) : ByteStr :=
  (List.range 32).map
    (fun i => (s.data.foldl (fun a c => a * 131 + c.toNat + 1) (i + 7)) % 256)

/-- Line 144: `hash_string("account-" + std::to_string(j))`. -/
def addrOf (j : Nat) : ByteStr := hash_string ("account-" ++ toString j)

/-- Lines 154 / 227: `hash_string("acc-" + to_string(j) + "-slot-" + to_string(s))`. -/
def slotKeyOf (j s : Nat) : ByteStr :=
  hash_string ("acc-" ++ toString j ++ "-slot-" ++ toString s)

/-! ### The generator (`monad::small_prng r(42)`, line 118) -/

/-- Modelled from the spec: `monad::small_prng` (header not under `src/`; the
spec explicitly leaves the bit-mixing algorithm open).  The stream of values
returned by successive `r()` calls is abstracted as a function `f : Nat → Nat`
of the draw index; `r32 f k` is the `k`-th draw, truncated to the `uint32_t`
range that `r()` returns. -/
def r32 (f : Nat → Nat) (k : Nat) : Nat := f k % 4294967296

/-- Modelled from the spec: the seeded generator stream — a deterministic
function of the seed with no further specified structure; the concrete mixing
below is a stand-in with exactly that property. -/
def prngStream (seed : Nat) (k : Nat) : Nat :=
  (seed * 6364136223846793005 + (k + 1) * 1442695040888963407) % 18446744073709551616

/-- Checked `%`: C++ `a % b` is undefined behaviour when `b = 0`, so it is
modelled as `none` there. -/
def cmod (a b : Nat) : Option Nat := if b = 0 then none else some (a % b)

/-! ### Phase 1 generation (`main`, lines 133–195) -/

/-- `AccountData` (lines 137–140): simulated account value plus the
deduplicated slot map.  A default-constructed entry (`batchData[addrHash]` on
a fresh key) has empty value and empty slot map. -/
structure AccountData where
  value : ByteStr
  slots : List (ByteStr × ByteStr)
deriving Repr, DecidableEq, Inhabited

/-- Line 150: `acc.value[b] = (uint8_t)(r() % 256)` for `b = 0..39`,
consuming draws `k, …, k + 39`. -/
def acctBytes (f : Nat → Nat) (k : Nat) : ByteStr :=
  (List.range 40).map (fun b => r32 f (k + b) % 256)

/-- Lines 155–162: one phase-1 slot value.  Draw `k` is `dice = r() % 100`;
`dice < 20` leaves the 32 bytes zero, `dice < 30` sets only the last byte to 1,
otherwise 32 further draws fill the bytes.  Returns the value and the next
draw index. -/
def slotVal1 (f : Nat → Nat) (k : Nat) : ByteStr × Nat :=
  let dice := r32 f k % 100
  if dice < 20 then (List.replicate 32 0, k + 1)
  else if dice < 30 then (List.replicate 31 0 ++ [1], k + 1)
  else ((List.range 32).map (fun b => r32 f (k + 1 + b) % 256), k + 33)

/-- One raw write produced by the generator, tagged with the draw index at
which its value generation started. -/
inductive WEv where
  | acct (k : Nat) (addr : ByteStr) (val : ByteStr)
  | slot (k : Nat) (addr : ByteStr) (key : ByteStr) (val : ByteStr)
deriving Repr, DecidableEq

/-- Lines 153–165: the slot loop `for (s = 0; s < vSlots; ++s)`, structured on
the remaining iteration count (first argument).  Returns the updated slot map,
the write trace in generation order, and the next draw index. -/
def slotsLoop1 (f : Nat → Nat) (j : Nat) (addr : ByteStr) :
    Nat → Nat → Nat → List (ByteStr × ByteStr) →
    List (ByteStr × ByteStr) × List WEv × Nat
  | 0, _, k, slots => (slots, [], k)
  | c + 1, s, k, slots =>
    let key := slotKeyOf j s
    let p := slotVal1 f k
    let rest := slotsLoop1 f j addr c (s + 1) p.2 (mapInsert key p.1 slots)
    (rest.1, .slot k addr key p.1 :: rest.2.1, rest.2.2)

/-- Lines 144–165: the body of `for (j = i; j < batchEnd; ++j)` for one `j`:
memoize the address (`if (addrs.size() <= j) addrs.push_back`), redraw the
40-byte account value into the (possibly pre-existing) map entry, draw
`vSlots = r() % (nSlots * 2)` — undefined behaviour for `nSlots = 0`, hence
`Option` — then run the slot loop on the entry's slot map. -/
def acctStep1 (f : Nat → Nat) (nSlots j k : Nat) (addrs : List ByteStr)
    (batch : List (ByteStr × AccountData)) :
    Option (List (ByteStr × AccountData) × List ByteStr × List WEv × Nat) :=
  let addr := addrOf j
  let addrs' := if addrs.length ≤ j then addrs ++ [addr] else addrs
  let acc0 := (mapLookup addr batch).getD ⟨[], []⟩
  let av := acctBytes f k
  match cmod (r32 f (k + 40)) (nSlots * 2) with
  | none => none
  | some vSlots =>
    let r := slotsLoop1 f j addr vSlots 0 (k + 41) acc0.slots
    some (mapInsert addr ⟨av, r.1⟩ batch, addrs', .acct k addr av :: r.2.1, r.2.2)

/-- Lines 143–166: the account loop over `j = i, …, batchEnd - 1`, structured
on the remaining count `batchEnd - j` (first argument). -/
def batchLoop1 (f : Nat → Nat) (nSlots : Nat) :
    Nat → Nat → Nat → List ByteStr → List (ByteStr × AccountData) →
    Option (List (ByteStr × AccountData) × List ByteStr × List WEv × Nat)
  | 0, _, k, addrs, batch => some (batch, addrs, [], k)
  | c + 1, j, k, addrs, batch =>
    match acctStep1 f nSlots j k addrs batch with
    | none => none
    | some (batch', addrs', tr, k') =>
      match batchLoop1 f nSlots c (j + 1) k' addrs' batch' with
      | none => none
      | some (bF, aF, trF, kF) => some (bF, aF, tr ++ trF, kF)

/-! ### Update tree builder (lines 168–188 and 237–256)

`monad::mpt::Update` nodes appear at exactly two levels in this driver, so the
embedding stratifies them: `SlotUpd` for leaf slot updates, `AcctUpd` for
account updates owning a child list. -/

/-- A slot-level `Update` node built by `make_update(sKey, sVal)`
(lines 181 / 250). -/
structure SlotUpd where
  key : ByteStr
  value : ByteStr
deriving Repr, DecidableEq, Inhabited

/-- An account-level `Update` node: key, optional value payload, and the
`next` child list of slot updates.  Phase 1 builds it via
`make_update(addr, acc.value)` plus `.next = slotList` (lines 185–186);
phase 2 uses the value-less overload `make_update(addr, std::move(slotList))`
(line 254) — that overload lives in a header not under `src/` and is modelled
from the spec's description of an Update as a key that *may* carry a payload
and a child list: it attaches the children and carries no value payload. -/
structure AcctUpd where
  key : ByteStr
  value : Option ByteStr
  children : List SlotUpd
deriving Repr, DecidableEq, Inhabited

/-- Lines 180–183 / 249–252: `currentSlotUpdateList.push_front(make_update(sKey, sVal))`
per slot, iterating the deduplicated slot map in ascending key order. -/
def buildSlotList (slots : List (ByteStr × ByteStr)) : List SlotUpd :=
  slots.foldl (fun acc kv => ⟨kv.1, kv.2⟩ :: acc) []

/-- Lines 174–188: the phase-1 batch `UpdateList`: iterate `batchData` in
ascending key order, build each account node with its slot child list, and
`push_front` it onto the batch list. -/
def buildBatch1 (bd : List (ByteStr × AccountData)) : List AcctUpd :=
  bd.foldl (fun acc e => ⟨e.1, some e.2.value, buildSlotList e.2.slots⟩ :: acc) []

/-- Lines 243–256: the phase-2 batch `UpdateList` (account nodes built from
the slot list alone). -/
def buildBatch2 (bd : List (ByteStr × List (ByteStr × ByteStr))) : List AcctUpd :=
  bd.foldl (fun acc e => ⟨e.1, none, buildSlotList e.2⟩ :: acc) []

/-! ### The commit loops (`for (i = 0; i < bound; i += kCommit)`) -/

/-- The indices visited by `for (i = i0; i < bound; i += step)`, driven by a
fuel bound (the C++ loop does not terminate for `step = 0`; with `step ≥ 1`
and `i0 = 0`, fuel `bound` always suffices). -/
def loopStartsAux : Nat → Nat → Nat → Nat → List Nat
  | 0, _, _, _ => []
  | fuel + 1, i, bound, step =>
    if i < bound then i :: loopStartsAux fuel (i + step) bound step else []

/-- The batch start indices of a commit loop with bound `bound` and step
`step` (lines 133 and 215). -/
def loopStarts (bound step : Nat) : List Nat := loopStartsAux bound 0 bound step

/-- Line 190: `version = (uint64_t)(i / kCommit) + 1`. -/
def p1Version (kC i : Nat) : Nat := i / kC + 1

/-- Line 258: `version = 1000000 + (uint64_t)(i / kCommit) + 1`. -/
def p2Version (kC i : Nat) : Nat := 1000000 + i / kC + 1

/-- The phase-1 version sequence, in commit order. -/
def p1Versions (n kC : Nat) : List Nat := (loopStarts n kC).map (p1Version kC)

/-- The phase-2 version sequence (over the clamped modify count), in commit
order. -/
def p2Versions (mMod kC : Nat) : List Nat := (loopStarts mMod kC).map (p2Version kC)

/-- Lines 133–195: the phase-1 commit loop over the batch start indices.
Each iteration deduplicates one batch starting from an empty `batchData`
(line 141) and records the committed (batch, version) pair; the update list
handed to `upsert` is `buildBatch1` of the recorded batch. -/
def runBatches1 (f : Nat → Nat) (nSlots n kC : Nat) :
    List Nat → List ByteStr → Nat →
    Option (List (List (ByteStr × AccountData) × Nat) × List ByteStr × List WEv × Nat)
  | [], addrs, k => some ([], addrs, [], k)
  | i :: rest, addrs, k =>
    match batchLoop1 f nSlots (min (i + kC) n - i) i k addrs [] with
    | none => none
    | some (bd, addrs', tr, k') =>
      match runBatches1 f nSlots n kC rest addrs' k' with
      | none => none
      | some (bs, aF, trF, kF) => some ((bd, p1Version kC i) :: bs, aF, tr ++ trF, kF)

/-! ### Phase 2 generation (`main`, lines 202–261) -/

/-- `std::swap(indices[a], indices[b])` on in-range positions of a vector. -/
def swapIdx (l : List Nat) (a b : Nat) : List Nat :=
  let x := l.getD a 0
  let y := l.getD b 0
  (l.set a y).set b x

/-- Lines 211–213: the shuffle loop
`for (i = nAccounts - 1; i > 0; --i) swap(indices[i], indices[r() % (i + 1)])`,
structured on the current loop variable `i` (first argument). -/
def shuffleLoop (f : Nat → Nat) : Nat → Nat → List Nat → List Nat × Nat
  | 0, k, l => (l, k)
  | i + 1, k, l =>
    let j := r32 f k % (i + 2)
    shuffleLoop f i (k + 1) (swapIdx l (i + 1) j)

/-- Line 203: `mModify = std::min(mModify, nAccounts)`. -/
def mClamp (mModify nAccounts : Nat) : Nat := min mModify nAccounts

/-- Lines 225–234: one phase-2 slot write: `slotIdx = r() % nSlots` (undefined
behaviour for `nSlots = 0`, hence `Option`), the recomputed slot key, then 32
unconditionally random bytes — phase 2 draws no dice. -/
def slotStep2 (f : Nat → Nat) (nSlots accountIdx k : Nat) :
    Option ((ByteStr × ByteStr) × Nat) :=
  match cmod (r32 f k) nSlots with
  | none => none
  | some slotIdx =>
    some ((slotKeyOf accountIdx slotIdx,
           (List.range 32).map (fun b => r32 f (k + 1 + b) % 256)), k + 33)

/-- Lines 225–234: the `for (s = 0; s < 100; ++s)` loop, structured on the
remaining count. -/
def slotsLoop2 (f : Nat → Nat) (nSlots accountIdx : Nat) (addr : ByteStr) :
    Nat → Nat → List (ByteStr × ByteStr) →
    Option (List (ByteStr × ByteStr) × List WEv × Nat)
  | 0, k, slots => some (slots, [], k)
  | c + 1, k, slots =>
    match slotStep2 f nSlots accountIdx k with
    | none => none
    | some (kv, k1) =>
      match slotsLoop2 f nSlots accountIdx addr c k1 (mapInsert kv.1 kv.2 slots) with
      | none => none
      | some (res, tr, k2) => some (res, .slot k addr kv.1 kv.2 :: tr, k2)

/-- Lines 221–235: the body for one `j`: `accountIdx = indices[j]`,
`addrHash = addrs[accountIdx]`, then 100 slot writes deduplicated into
`batchModData[addrHash]`.  Phase 2 draws no account value. -/
def acctStep2 (f : Nat → Nat) (nSlots : Nat) (indices : List Nat)
    (addrs : List ByteStr) (j k : Nat)
    (batch : List (ByteStr × List (ByteStr × ByteStr))) :
    Option (List (ByteStr × List (ByteStr × ByteStr)) × List WEv × Nat) :=
  let accountIdx := indices.getD j 0
  let addr := addrs.getD accountIdx []
  let slots0 := (mapLookup addr batch).getD []
  match slotsLoop2 f nSlots accountIdx addr 100 k slots0 with
  | none => none
  | some (slots, tr, k') => some (mapInsert addr slots batch, tr, k')

/-- Lines 221–235: the phase-2 account loop over `j = i, …, batchEnd - 1`,
structured on the remaining count. -/
def batchLoop2 (f : Nat → Nat) (nSlots : Nat) (indices : List Nat)
    (addrs : List ByteStr) :
    Nat → Nat → Nat → List (ByteStr × List (ByteStr × ByteStr)) →
    Option (List (ByteStr × List (ByteStr × ByteStr)) × List WEv × Nat)
  | 0, _, k, batch => some (batch, [], k)
  | c + 1, j, k, batch =>
    match acctStep2 f nSlots indices addrs j k batch with
    | none => none
    | some (batch', tr, k') =>
      match batchLoop2 f nSlots indices addrs c (j + 1) k' batch' with
      | none => none
      | some (bF, trF, kF) => some (bF, tr ++ trF, kF)

/-- Lines 215–261: the phase-2 commit loop over the batch start indices of
the clamped modify count. -/
def runBatches2 (f : Nat → Nat) (nSlots mMod kC : Nat) (indices : List Nat)
    (addrs : List ByteStr) :
    List Nat → Nat →
    Option (List (List (ByteStr × List (ByteStr × ByteStr)) × Nat) × List WEv × Nat)
  | [], k => some ([], [], k)
  | i :: rest, k =>
    match batchLoop2 f nSlots indices addrs (min (i + kC) mMod - i) i k [] with
    | none => none
    | some (bd, tr, k') =>
      match runBatches2 f nSlots mMod kC indices addrs rest k' with
      | none => none
      | some (bs, trF, kF) => some ((bd, p2Version kC i) :: bs, tr ++ trF, kF)

/-- The observable outcome of one benchmark run: per-phase committed
(batch, version) pairs, the memoized address sequence, the shuffled index
vector, the raw write trace, and the total number of generator draws. -/
structure RunOut where
  p1 : List (List (ByteStr × AccountData) × Nat)
  p2 : List (List (ByteStr × List (ByteStr × ByteStr)) × Nat)
  addrs : List ByteStr
  indices : List Nat
  trace : List WEv
  drawEnd : Nat
deriving Repr, Inhabited

/-- Lines 118–261: the complete generation pipeline: phase 1 over
`loopStarts nAccounts kCommit`, then the index shuffle (lines 208–213), then
the clamp `mModify = min(mModify, nAccounts)` (line 203) and phase 2 over
`loopStarts (mClamp mModify nAccounts) kCommit`, all consuming the single
shared generator in sequence. -/
def fullRun (f : Nat → Nat) (nAccounts nSlots mModify kCommit : Nat) :
    Option RunOut :=
  match runBatches1 f nSlots nAccounts kCommit (loopStarts nAccounts kCommit) [] 0 with
  | none => none
  | some (p1, addrs, tr1, k1) =>
    let sh := shuffleLoop f (nAccounts - 1) k1 (List.range nAccounts)
    let mMod := mClamp mModify nAccounts
    match runBatches2 f nSlots mMod kCommit sh.1 addrs (loopStarts mMod kCommit) sh.2 with
    | none => none
    | some (p2, tr2, k2) => some ⟨p1, p2, addrs, sh.1, tr1 ++ tr2, k2⟩

/-! ### Disk-size sampling (`get_dir_size`, lines 47–61) -/

/-- A filesystem entry: a regular file with a size, a directory with entries,
or anything else (symlink, device, …). -/
inductive FSEntry where
  | file (size : Nat)
  | dir (entries : List FSEntry)
  | other
deriving Repr

/-- Lines 51–55: the `recursive_directory_iterator` walk — visit every entry
below an entry and sum the sizes of the regular files among them. -/
def walkSize : FSEntry → Nat
  | .file s => s
  | .other => 0
  | .dir [] => 0
  | .dir (e :: es) => walkSize e + walkSize (.dir es)

/-- Lines 47–61: `get_dir_size(path)`.  `none` models a path for which
`std::filesystem::exists` is false; an existing path that is neither a
directory nor a regular file leaves `size = 0`. -/
def get_dir_size : Option FSEntry → Nat
  | none => 0
  | some (.dir es) => walkSize (.dir es)
  | some (.file s) => s
  | some .other => 0

/-- The sizes of all regular files reachable from an entry by recursive
walk, in visit order. -/
def regFileSizes : FSEntry → List Nat
  | .file s => [s]
  | .other => []
  | .dir [] => []
  | .dir (e :: es) => regFileSizes e ++ regFileSizes (.dir es)

/-! ### Startup root loading (lines 120–124) -/

/-- `(uint64_t)-1`, the "no version" sentinel compared against on line 122. -/
def uint64Max : Nat := 18446744073709551615

/-- Lines 120–124, with the store spec-modelled (`Db::get_latest_version` and
`Db::load_root_for_version` are not under `src/`): `get_latest_version()`
returns either the sentinel or the most recent committed version, and loading
version `v`'s root is represented by `v` itself — the only observable the
driver extracts.  The driver loads the root iff
`latest_version != 0 && latest_version != (uint64_t)-1`. -/
def initialRoot (latest_version : Nat) : Option Nat :=
  if latest_version ≠ 0 ∧ latest_version ≠ uint64Max then some latest_version
  else none

/-- Modelled from the spec's words ("if one exists (and is not the store's
"no version" sentinel), it loads that version's root as the initial Root
instead of starting empty"): load whenever the returned version is not the
sentinel. -/
def initialRootSpec (latest_version : Nat) : Option Nat :=
  if latest_version ≠ uint64Max then some latest_version else none

/-! ## Supporting lemmas -/

theorem walkSize_eq_sum_regFileSizes : ∀ e : FSEntry, walkSize e = (regFileSizes e).sum
  | .file s => by rw [walkSize, regFileSizes]; simp
  | .other => by rw [walkSize, regFileSizes]; rfl
  | .dir [] => by rw [walkSize, regFileSizes]; rfl
  | .dir (e :: es) => by
    rw [walkSize, regFileSizes, List.sum_append,
      walkSize_eq_sum_regFileSizes e, walkSize_eq_sum_regFileSizes (.dir es)]

theorem foldl_cons_eq_reverse_map (g : α → β) :
    ∀ (l : List α) (acc : List β),
      l.foldl (fun a e => g e :: a) acc = (l.map g).reverse ++ acc := by
  intro l
  induction l with
  | nil => intro acc; simp
  | cons hd tl ih =>
    intro acc
    rw [List.foldl_cons, ih, List.map_cons, List.reverse_cons, List.append_assoc]
    rfl

/-- `buildSlotList` is exactly the reverse of the ascending-order slot nodes. -/
theorem buildSlotList_eq_reverse (slots : List (ByteStr × ByteStr)) :
    buildSlotList slots = (slots.map (fun kv => (⟨kv.1, kv.2⟩ : SlotUpd))).reverse := by
  rw [buildSlotList, foldl_cons_eq_reverse_map, List.append_nil]

/-- `buildBatch1` is exactly the reverse of the ascending-order account nodes. -/
theorem buildBatch1_eq_reverse (bd : List (ByteStr × AccountData)) :
    buildBatch1 bd =
      (bd.map (fun e => (⟨e.1, some e.2.value, buildSlotList e.2.slots⟩ : AcctUpd))).reverse := by
  rw [buildBatch1, foldl_cons_eq_reverse_map, List.append_nil]

/-- `buildBatch2` is exactly the reverse of the ascending-order account nodes. -/
theorem buildBatch2_eq_reverse (bd : List (ByteStr × List (ByteStr × ByteStr))) :
    buildBatch2 bd =
      (bd.map (fun e => (⟨e.1, none, buildSlotList e.2⟩ : AcctUpd))).reverse := by
  rw [buildBatch2, foldl_cons_eq_reverse_map, List.append_nil]

theorem mapLookup_mem {k : ByteStr} {v : α} :
    ∀ {m : List (ByteStr × α)}, mapLookup k m = some v → (k, v) ∈ m := by
  intro m
  induction m with
  | nil => intro h; rw [mapLookup] at h; exact Option.noConfusion h
  | cons hd tl ih =>
    obtain ⟨k', v'⟩ := hd
    intro h
    rw [mapLookup] at h
    by_cases hk : k = k'
    · rw [if_pos hk] at h
      cases Option.some.inj h
      subst hk
      exact List.mem_cons_self _ _
    · rw [if_neg hk] at h
      exact List.mem_cons_of_mem _ (ih h)

theorem mem_mapInsert {k : ByteStr} {v : α} :
    ∀ {m : List (ByteStr × α)} {e : ByteStr × α},
      e ∈ mapInsert k v m → e = (k, v) ∨ e ∈ m := by
  intro m
  induction m with
  | nil =>
    intro e he
    rw [mapInsert] at he
    simp only [List.mem_singleton] at he
    exact Or.inl he
  | cons hd tl ih =>
    obtain ⟨k', v'⟩ := hd
    intro e he
    rw [mapInsert] at he
    by_cases h1 : k < k'
    · rw [if_pos h1] at he
      simp only [List.mem_cons] at he ⊢
      tauto
    · by_cases h2 : k = k'
      · rw [if_neg h1, if_pos h2] at he
        simp only [List.mem_cons] at he ⊢
        tauto
      · rw [if_neg h1, if_neg h2] at he
        simp only [List.mem_cons] at he ⊢
        rcases he with he | he
        · exact Or.inr (Or.inl he)
        · rcases ih he with h | h
          · exact Or.inl h
          · exact Or.inr (Or.inr h)

theorem slotsLoop1_sorted (f : Nat → Nat) (j : Nat) (addr : ByteStr) :
    ∀ (c s k : Nat) (slots : List (ByteStr × ByteStr)), SortedMap slots →
      SortedMap (slotsLoop1 f j addr c s k slots).1 := by
  intro c
  induction c with
  | zero => intro s k slots h; exact h
  | succ c ih =>
    intro s k slots h
    simp only [slotsLoop1]
    exact ih _ _ _ (sortedMap_insert h)

/-- The phase-1 per-batch invariant: `batchData` is key-sorted, every entry's
slot map is key-sorted, and every entry's value is the 40-byte blob drawn at
the draw position of its most recent (re)write. -/
def Batch1Inv (f : Nat → Nat) (bd : List (ByteStr × AccountData)) : Prop :=
  SortedMap bd ∧ ∀ e ∈ bd, SortedMap e.2.slots ∧ ∃ k, e.2.value = acctBytes f k

theorem acctStep1_inv {f : Nat → Nat} {nSlots j k : Nat} {addrs : List ByteStr}
    {batch : List (ByteStr × AccountData)}
    {out : List (ByteStr × AccountData) × List ByteStr × List WEv × Nat}
    (hb : Batch1Inv f batch) (h : acctStep1 f nSlots j k addrs batch = some out) :
    Batch1Inv f out.1 := by
  simp only [acctStep1] at h
  split at h
  · exact Option.noConfusion h
  · cases Option.some.inj h
    have hslots0 : SortedMap ((mapLookup (addrOf j) batch).getD ⟨[], []⟩).slots := by
      cases hl : mapLookup (addrOf j) batch with
      | none => exact List.Pairwise.nil
      | some a => exact (hb.2 _ (mapLookup_mem hl)).1
    constructor
    · exact sortedMap_insert hb.1
    · intro e he
      rcases mem_mapInsert he with rfl | he
      · exact ⟨slotsLoop1_sorted f j (addrOf j) _ _ _ _ hslots0, k, rfl⟩
      · exact hb.2 e he

theorem batchLoop1_inv {f : Nat → Nat} {nSlots : Nat} :
    ∀ {c j k : Nat} {addrs : List ByteStr}
      {batch : List (ByteStr × AccountData)}
      {out : List (ByteStr × AccountData) × List ByteStr × List WEv × Nat},
      Batch1Inv f batch → batchLoop1 f nSlots c j k addrs batch = some out →
      Batch1Inv f out.1 := by
  intro c
  induction c with
  | zero =>
    intro j k addrs batch out hb h
    rw [batchLoop1] at h
    cases Option.some.inj h
    exact hb
  | succ c ih =>
    intro j k addrs batch out hb h
    rw [batchLoop1] at h
    split at h
    · exact Option.noConfusion h
    · rename_i batch' addrs' tr k' heq
      split at h
      · exact Option.noConfusion h
      · rename_i bF aF trF kF heq'
        cases Option.some.inj h
        exact @ih (j + 1) k' addrs' batch' (bF, aF, trF, kF) (acctStep1_inv hb heq) heq'

/-- The phase-2 per-batch invariant: `batchModData` is key-sorted and every
entry's slot map is key-sorted. -/
def Batch2Inv (bd : List (ByteStr × List (ByteStr × ByteStr))) : Prop :=
  SortedMap bd ∧ ∀ e ∈ bd, SortedMap e.2

theorem slotsLoop2_sorted {f : Nat → Nat} {nSlots accountIdx : Nat} {addr : ByteStr} :
    ∀ {c k : Nat} {slots : List (ByteStr × ByteStr)}
      {out : List (ByteStr × ByteStr) × List WEv × Nat},
      SortedMap slots → slotsLoop2 f nSlots accountIdx addr c k slots = some out →
      SortedMap out.1 := by
  intro c
  induction c with
  | zero =>
    intro k slots out hs h
    rw [slotsLoop2] at h
    cases Option.some.inj h
    exact hs
  | succ c ih =>
    intro k slots out hs h
    rw [slotsLoop2] at h
    split at h
    · exact Option.noConfusion h
    · rename_i kv k1 heq1
      split at h
      · exact Option.noConfusion h
      · rename_i res tr k2 heq2
        cases Option.some.inj h
        exact @ih k1 (mapInsert kv.1 kv.2 slots) (res, tr, k2) (sortedMap_insert hs) heq2

theorem acctStep2_inv {f : Nat → Nat} {nSlots : Nat} {indices : List Nat}
    {addrs : List ByteStr} {j k : Nat}
    {batch : List (ByteStr × List (ByteStr × ByteStr))}
    {out : List (ByteStr × List (ByteStr × ByteStr)) × List WEv × Nat}
    (hb : Batch2Inv batch) (h : acctStep2 f nSlots indices addrs j k batch = some out) :
    Batch2Inv out.1 := by
  simp only [acctStep2] at h
  split at h
  · exact Option.noConfusion h
  · rename_i slots tr k' heq
    cases Option.some.inj h
    have hslots0 : SortedMap ((mapLookup (addrs.getD (indices.getD j 0) []) batch).getD []) := by
      cases hl : mapLookup (addrs.getD (indices.getD j 0) []) batch with
      | none => exact List.Pairwise.nil
      | some a => exact hb.2 _ (mapLookup_mem hl)
    constructor
    · exact sortedMap_insert hb.1
    · intro e he
      rcases mem_mapInsert he with rfl | he
      · exact slotsLoop2_sorted hslots0 heq
      · exact hb.2 e he

theorem batchLoop2_inv {f : Nat → Nat} {nSlots : Nat} {indices : List Nat}
    {addrs : List ByteStr} :
    ∀ {c j k : Nat} {batch : List (ByteStr × List (ByteStr × ByteStr))}
      {out : List (ByteStr × List (ByteStr × ByteStr)) × List WEv × Nat},
      Batch2Inv batch → batchLoop2 f nSlots indices addrs c j k batch = some out →
      Batch2Inv out.1 := by
  intro c
  induction c with
  | zero =>
    intro j k batch out hb h
    rw [batchLoop2] at h
    cases Option.some.inj h
    exact hb
  | succ c ih =>
    intro j k batch out hb h
    rw [batchLoop2] at h
    split at h
    · exact Option.noConfusion h
    · rename_i batch' tr k' heq
      split at h
      · exact Option.noConfusion h
      · rename_i bF trF kF heq'
        cases Option.some.inj h
        exact @ih (j + 1) k' batch' (bF, trF, kF) (acctStep2_inv hb heq) heq'

theorem acctBytes_length (f : Nat → Nat) (k : Nat) : (acctBytes f k).length = 40 := by
  simp [acctBytes]

/-- The dice trichotomy of a phase-1 slot value (lines 155–162): one uniform
draw `dice = r() % 100` selects all-zero (`dice < 20`), last-byte-1 sentinel
(`20 ≤ dice < 30`), or 32 fully random bytes (`dice ≥ 30`); the value is
always 32 bytes. -/
theorem slotVal1_cases (f : Nat → Nat) (k : Nat) :
    r32 f k % 100 < 100 ∧ (slotVal1 f k).1.length = 32 ∧
    (r32 f k % 100 < 20 → (slotVal1 f k).1 = List.replicate 32 0) ∧
    (20 ≤ r32 f k % 100 → r32 f k % 100 < 30 →
      (slotVal1 f k).1 = List.replicate 31 0 ++ [1]) ∧
    (30 ≤ r32 f k % 100 →
      (slotVal1 f k).1 = (List.range 32).map (fun b => r32 f (k + 1 + b) % 256)) := by
  refine ⟨Nat.mod_lt _ (by norm_num), ?_, ?_, ?_, ?_⟩
  · by_cases h20 : r32 f k % 100 < 20
    · simp [slotVal1, h20]
    · by_cases h30 : r32 f k % 100 < 30
      · simp [slotVal1, h20, h30]
      · simp [slotVal1, h20, h30]
  · intro h20
    simp [slotVal1, h20]
  · intro hge h30
    have h20 : ¬ r32 f k % 100 < 20 := by omega
    simp [slotVal1, h20, h30]
  · intro hge
    have h20 : ¬ r32 f k % 100 < 20 := by omega
    have h30 : ¬ r32 f k % 100 < 30 := by omega
    simp [slotVal1, h20, h30]

/-- The phase-1 write-event contract: an account write tagged with draw index
`k` carries exactly the 40 bytes drawn at `k`; a slot write tagged `k` carries
exactly the dice-selected `slotVal1` value at `k`. -/
def evOk1 (f : Nat → Nat) : WEv → Prop
  | .acct k _ v => v = acctBytes f k
  | .slot k _ _ v => v = (slotVal1 f k).1

/-- The phase-2 write-event contract: phase 2 emits no account writes, and a
slot write tagged `k` carries 32 unconditionally random bytes (no dice draw). -/
def evOk2 (f : Nat → Nat) : WEv → Prop
  | .acct _ _ _ => False
  | .slot k _ _ v => v = (List.range 32).map (fun b => r32 f (k + 1 + b) % 256)

theorem slotsLoop1_trace (f : Nat → Nat) (j : Nat) (addr : ByteStr) :
    ∀ (c s k : Nat) (slots : List (ByteStr × ByteStr)),
      ∀ ev ∈ (slotsLoop1 f j addr c s k slots).2.1, evOk1 f ev := by
  intro c
  induction c with
  | zero =>
    intro s k slots ev hev
    rw [slotsLoop1] at hev
    exact absurd hev (List.not_mem_nil ev)
  | succ c ih =>
    intro s k slots ev hev
    simp only [slotsLoop1] at hev
    rcases List.mem_cons.mp hev with rfl | hev
    · exact rfl
    · exact ih _ _ _ ev hev

theorem acctStep1_trace {f : Nat → Nat} {nSlots j k : Nat} {addrs : List ByteStr}
    {batch : List (ByteStr × AccountData)}
    {out : List (ByteStr × AccountData) × List ByteStr × List WEv × Nat}
    (h : acctStep1 f nSlots j k addrs batch = some out) :
    ∀ ev ∈ out.2.2.1, evOk1 f ev := by
  simp only [acctStep1] at h
  split at h
  · exact Option.noConfusion h
  · cases Option.some.inj h
    intro ev hev
    rcases List.mem_cons.mp hev with rfl | hev
    · exact rfl
    · exact slotsLoop1_trace f j (addrOf j) _ _ _ _ ev hev

theorem batchLoop1_trace {f : Nat → Nat} {nSlots : Nat} :
    ∀ {c j k : Nat} {addrs : List ByteStr}
      {batch : List (ByteStr × AccountData)}
      {out : List (ByteStr × AccountData) × List ByteStr × List WEv × Nat},
      batchLoop1 f nSlots c j k addrs batch = some out →
      ∀ ev ∈ out.2.2.1, evOk1 f ev := by
  intro c
  induction c with
  | zero =>
    intro j k addrs batch out h ev hev
    rw [batchLoop1] at h
    cases Option.some.inj h
    exact absurd hev (List.not_mem_nil ev)
  | succ c ih =>
    intro j k addrs batch out h ev hev
    rw [batchLoop1] at h
    split at h
    · exact Option.noConfusion h
    · rename_i batch' addrs' tr k' heq
      split at h
      · exact Option.noConfusion h
      · rename_i bF aF trF kF heq'
        cases Option.some.inj h
        rcases List.mem_append.mp hev with hev | hev
        · exact acctStep1_trace heq ev hev
        · exact @ih (j + 1) k' addrs' batch' (bF, aF, trF, kF) heq' ev hev

theorem runBatches1_trace {f : Nat → Nat} {nSlots n kC : Nat} :
    ∀ {starts : List Nat} {addrs : List ByteStr} {k : Nat}
      {res : List (List (ByteStr × AccountData) × Nat) × List ByteStr × List WEv × Nat},
      runBatches1 f nSlots n kC starts addrs k = some res →
      ∀ ev ∈ res.2.2.1, evOk1 f ev := by
  intro starts
  induction starts with
  | nil =>
    intro addrs k res h ev hev
    rw [runBatches1] at h
    cases Option.some.inj h
    exact absurd hev (List.not_mem_nil ev)
  | cons i rest ih =>
    intro addrs k res h ev hev
    rw [runBatches1] at h
    split at h
    · exact Option.noConfusion h
    · rename_i bd addrs' tr k' heq
      split at h
      · exact Option.noConfusion h
      · rename_i bs aF trF kF heq'
        cases Option.some.inj h
        rcases List.mem_append.mp hev with hev | hev
        · exact batchLoop1_trace heq ev hev
        · exact @ih addrs' k' (bs, aF, trF, kF) heq' ev hev

/-- Every batch recorded by the phase-1 commit loop satisfies the batch
invariant (it is deduplicated from an empty `batchData`). -/
theorem runBatches1_batches {f : Nat → Nat} {nSlots n kC : Nat} :
    ∀ {starts : List Nat} {addrs : List ByteStr} {k : Nat}
      {res : List (List (ByteStr × AccountData) × Nat) × List ByteStr × List WEv × Nat},
      runBatches1 f nSlots n kC starts addrs k = some res →
      ∀ b ∈ res.1, Batch1Inv f b.1 := by
  intro starts
  induction starts with
  | nil =>
    intro addrs k res h b hb
    rw [runBatches1] at h
    cases Option.some.inj h
    exact absurd hb (List.not_mem_nil b)
  | cons i rest ih =>
    intro addrs k res h b hb
    rw [runBatches1] at h
    split at h
    · exact Option.noConfusion h
    · rename_i bd addrs' tr k' heq
      split at h
      · exact Option.noConfusion h
      · rename_i bs aF trF kF heq'
        cases Option.some.inj h
        rcases List.mem_cons.mp hb with rfl | hb
        · have hnil : Batch1Inv f [] :=
            ⟨List.Pairwise.nil, fun e he => absurd he (List.not_mem_nil e)⟩
          exact batchLoop1_inv hnil heq
        · exact @ih addrs' k' (bs, aF, trF, kF) heq' b hb

theorem slotsLoop2_trace {f : Nat → Nat} {nSlots accountIdx : Nat} {addr : ByteStr} :
    ∀ {c k : Nat} {slots : List (ByteStr × ByteStr)}
      {out : List (ByteStr × ByteStr) × List WEv × Nat},
      slotsLoop2 f nSlots accountIdx addr c k slots = some out →
      ∀ ev ∈ out.2.1, evOk2 f ev := by
  intro c
  induction c with
  | zero =>
    intro k slots out h ev hev
    rw [slotsLoop2] at h
    cases Option.some.inj h
    exact absurd hev (List.not_mem_nil ev)
  | succ c ih =>
    intro k slots out h ev hev
    rw [slotsLoop2] at h
    split at h
    · exact Option.noConfusion h
    · rename_i kv k1 heq1
      split at h
      · exact Option.noConfusion h
      · rename_i res tr k2 heq2
        cases Option.some.inj h
        rcases List.mem_cons.mp hev with rfl | hev
        · simp only [slotStep2] at heq1
          split at heq1
          · exact Option.noConfusion heq1
          · cases Option.some.inj heq1
            exact rfl
        · exact @ih k1 (mapInsert kv.1 kv.2 slots) (res, tr, k2) heq2 ev hev

theorem acctStep2_trace {f : Nat → Nat} {nSlots : Nat} {indices : List Nat}
    {addrs : List ByteStr} {j k : Nat}
    {batch : List (ByteStr × List (ByteStr × ByteStr))}
    {out : List (ByteStr × List (ByteStr × ByteStr)) × List WEv × Nat}
    (h : acctStep2 f nSlots indices addrs j k batch = some out) :
    ∀ ev ∈ out.2.1, evOk2 f ev := by
  simp only [acctStep2] at h
  split at h
  · exact Option.noConfusion h
  · rename_i slots tr k' heq
    cases Option.some.inj h
    exact slotsLoop2_trace heq

theorem batchLoop2_trace {f : Nat → Nat} {nSlots : Nat} {indices : List Nat}
    {addrs : List ByteStr} :
    ∀ {c j k : Nat} {batch : List (ByteStr × List (ByteStr × ByteStr))}
      {out : List (ByteStr × List (ByteStr × ByteStr)) × List WEv × Nat},
      batchLoop2 f nSlots indices addrs c j k batch = some out →
      ∀ ev ∈ out.2.1, evOk2 f ev := by
  intro c
  induction c with
  | zero =>
    intro j k batch out h ev hev
    rw [batchLoop2] at h
    cases Option.some.inj h
    exact absurd hev (List.not_mem_nil ev)
  | succ c ih =>
    intro j k batch out h ev hev
    rw [batchLoop2] at h
    split at h
    · exact Option.noConfusion h
    · rename_i batch' tr k' heq
      split at h
      · exact Option.noConfusion h
      · rename_i bF trF kF heq'
        cases Option.some.inj h
        rcases List.mem_append.mp hev with hev | hev
        · exact acctStep2_trace heq ev hev
        · exact @ih (j + 1) k' batch' (bF, trF, kF) heq' ev hev

theorem runBatches2_trace {f : Nat → Nat} {nSlots mMod kC : Nat}
    {indices : List Nat} {addrs : List ByteStr} :
    ∀ {starts : List Nat} {k : Nat}
      {res : List (List (ByteStr × List (ByteStr × ByteStr)) × Nat) × List WEv × Nat},
      runBatches2 f nSlots mMod kC indices addrs starts k = some res →
      ∀ ev ∈ res.2.1, evOk2 f ev := by
  intro starts
  induction starts with
  | nil =>
    intro k res h ev hev
    rw [runBatches2] at h
    cases Option.some.inj h
    exact absurd hev (List.not_mem_nil ev)
  | cons i rest ih =>
    intro k res h ev hev
    rw [runBatches2] at h
    split at h
    · exact Option.noConfusion h
    · rename_i bd tr k' heq
      split at h
      · exact Option.noConfusion h
      · rename_i bs trF kF heq'
        cases Option.some.inj h
        rcases List.mem_append.mp hev with hev | hev
        · exact batchLoop2_trace heq ev hev
        · exact @ih k' (bs, trF, kF) heq' ev hev

/-- Every batch recorded by the phase-2 commit loop satisfies the batch
invariant. -/
theorem runBatches2_batches {f : Nat → Nat} {nSlots mMod kC : Nat}
    {indices : List Nat} {addrs : List ByteStr} :
    ∀ {starts : List Nat} {k : Nat}
      {res : List (List (ByteStr × List (ByteStr × ByteStr)) × Nat) × List WEv × Nat},
      runBatches2 f nSlots mMod kC indices addrs starts k = some res →
      ∀ b ∈ res.1, Batch2Inv b.1 := by
  intro starts
  induction starts with
  | nil =>
    intro k res h b hb
    rw [runBatches2] at h
    cases Option.some.inj h
    exact absurd hb (List.not_mem_nil b)
  | cons i rest ih =>
    intro k res h b hb
    rw [runBatches2] at h
    split at h
    · exact Option.noConfusion h
    · rename_i bd tr k' heq
      split at h
      · exact Option.noConfusion h
      · rename_i bs trF kF heq'
        cases Option.some.inj h
        rcases List.mem_cons.mp hb with rfl | hb
        · have hnil : Batch2Inv [] :=
            ⟨List.Pairwise.nil, fun e he => absurd he (List.not_mem_nil e)⟩
          exact batchLoop2_inv hnil heq
        · exact @ih k' (bs, trF, kF) heq' b hb

/-- Destructuring of a completed run into its phase components. -/
theorem fullRun_elim {f : Nat → Nat} {n nSlots m kC : Nat} {out : RunOut}
    (h : fullRun f n nSlots m kC = some out) :
    ∃ (p1 : List (List (ByteStr × AccountData) × Nat)) (addrs : List ByteStr)
      (tr1 : List WEv) (k1 : Nat)
      (p2 : List (List (ByteStr × List (ByteStr × ByteStr)) × Nat))
      (tr2 : List WEv) (k2 : Nat),
      runBatches1 f nSlots n kC (loopStarts n kC) [] 0 = some (p1, addrs, tr1, k1) ∧
      runBatches2 f nSlots (mClamp m n) kC
        (shuffleLoop f (n - 1) k1 (List.range n)).1 addrs
        (loopStarts (mClamp m n) kC) (shuffleLoop f (n - 1) k1 (List.range n)).2
        = some (p2, tr2, k2) ∧
      out = ⟨p1, p2, addrs, (shuffleLoop f (n - 1) k1 (List.range n)).1,
             tr1 ++ tr2, k2⟩ := by
  simp only [fullRun] at h
  split at h
  · exact Option.noConfusion h
  · rename_i p1 addrs tr1 k1 heq1
    split at h
    · exact Option.noConfusion h
    · rename_i p2 tr2 k2 heq2
      cases Option.some.inj h
      exact ⟨p1, addrs, tr1, k1, p2, tr2, k2, heq1, heq2, rfl⟩

/-- Membership in a built phase-1 update list comes from a map entry. -/
theorem mem_buildBatch1 {bd : List (ByteStr × AccountData)} {u : AcctUpd} :
    u ∈ buildBatch1 bd →
    ∃ e ∈ bd, u = ⟨e.1, some e.2.value, buildSlotList e.2.slots⟩ := by
  intro hu
  rw [buildBatch1_eq_reverse, List.mem_reverse, List.mem_map] at hu
  obtain ⟨e, he, rfl⟩ := hu
  exact ⟨e, he, rfl⟩

/-- Membership in a built phase-2 update list comes from a map entry. -/
theorem mem_buildBatch2 {bd : List (ByteStr × List (ByteStr × ByteStr))} {u : AcctUpd} :
    u ∈ buildBatch2 bd → ∃ e ∈ bd, u = ⟨e.1, none, buildSlotList e.2⟩ := by
  intro hu
  rw [buildBatch2_eq_reverse, List.mem_reverse, List.mem_map] at hu
  obtain ⟨e, he, rfl⟩ := hu
  exact ⟨e, he, rfl⟩

/-- The account-node key sequence of a built phase-1 update list is the
reverse of the map's ascending key sequence. -/
theorem buildBatch1_keys (bd : List (ByteStr × AccountData)) :
    (buildBatch1 bd).map AcctUpd.key = (mapKeys bd).reverse := by
  rw [buildBatch1_eq_reverse, List.map_reverse, List.map_map, mapKeys]
  rfl

/-- The account-node key sequence of a built phase-2 update list is the
reverse of the map's ascending key sequence. -/
theorem buildBatch2_keys (bd : List (ByteStr × List (ByteStr × ByteStr))) :
    (buildBatch2 bd).map AcctUpd.key = (mapKeys bd).reverse := by
  rw [buildBatch2_eq_reverse, List.map_reverse, List.map_map, mapKeys]
  rfl

/-- The slot-node key sequence of a built slot list is the reverse of the
slot map's ascending key sequence. -/
theorem buildSlotList_keys (slots : List (ByteStr × ByteStr)) :
    (buildSlotList slots).map SlotUpd.key = (mapKeys slots).reverse := by
  rw [buildSlotList_eq_reverse, List.map_reverse, List.map_map, mapKeys]
  rfl

theorem loopStartsAux_head {fuel i bound step x : Nat} :
    x ∈ (loopStartsAux fuel i bound step).head? → x = i := by
  cases fuel with
  | zero =>
    intro h
    rw [loopStartsAux] at h
    exact absurd h (by simp)
  | succ fuel =>
    intro h
    rw [loopStartsAux] at h
    by_cases hib : i < bound
    · rw [if_pos hib] at h
      exact Eq.symm (by simpa using h)
    · rw [if_neg hib] at h
      exact absurd h (by simp)

/-- Consecutive batch start indices differ by exactly the step. -/
theorem loopStartsAux_chain (step : Nat) :
    ∀ (fuel i bound : Nat),
      List.Chain' (fun a b => a + step ≤ b) (loopStartsAux fuel i bound step) := by
  intro fuel
  induction fuel with
  | zero => intro i bound; rw [loopStartsAux]; exact List.chain'_nil
  | succ fuel ih =>
    intro i bound
    rw [loopStartsAux]
    by_cases hib : i < bound
    · rw [if_pos hib]
      refine List.chain'_cons'.mpr ⟨?_, ih (i + step) bound⟩
      intro y hy
      exact le_of_eq (loopStartsAux_head hy).symm
    · rw [if_neg hib]
      exact List.chain'_nil

/-- Every batch start's version is bounded by the number of remaining
batches. -/
theorem loopStartsAux_bound {step : Nat} (hs : 0 < step) :
    ∀ (fuel i bound x : Nat), x ∈ loopStartsAux fuel i bound step →
      x / step + 1 ≤ i / step + (loopStartsAux fuel i bound step).length := by
  intro fuel
  induction fuel with
  | zero =>
    intro i bound x hx
    rw [loopStartsAux] at hx
    exact absurd hx (List.not_mem_nil x)
  | succ fuel ih =>
    intro i bound x hx
    rw [loopStartsAux] at hx ⊢
    by_cases hib : i < bound
    · rw [if_pos hib] at hx ⊢
      rcases List.mem_cons.mp hx with rfl | hx
      · rw [List.length_cons]
        omega
      · have hrec := ih (i + step) bound x hx
        have hdiv : (i + step) / step = i / step + 1 := Nat.add_div_right i hs
        rw [List.length_cons]
        omega
    · rw [if_neg hib] at hx
      exact absurd hx (List.not_mem_nil x)

/-- `std::swap` of two in-range vector elements is a permutation. -/
theorem swapIdx_perm (l : List Nat) (a b : Nat) (ha : a < l.length) (hb : b < l.length) :
    List.Perm (swapIdx l a b) l := by
  rw [List.perm_iff_count]
  intro c
  simp only [swapIdx]
  have hga : l.getD a 0 = l[a] := List.getD_eq_getElem l 0 ha
  have hgb : l.getD b 0 = l[b] := List.getD_eq_getElem l 0 hb
  rw [hga, hgb]
  have hb1 : b < (l.set a l[b]).length := by rw [List.length_set]; exact hb
  have h1 := List.count_set (l[b]) c l a ha
  have h2 := List.count_set (l[a]) c (l.set a l[b]) b hb1
  simp only [List.getElem_set, ite_self] at h2
  simp only [beq_iff_eq] at h1 h2
  have hpa : l[a] ∈ l := List.getElem_mem ha
  have hpb : l[b] ∈ l := List.getElem_mem hb
  by_cases hc1 : l[a] = c
  · by_cases hc2 : l[b] = c
    · rw [if_pos hc1, if_pos hc2] at h1
      rw [if_pos hc2, if_pos hc1] at h2
      have hL : 0 < List.count c l := List.count_pos_iff.mpr (hc1 ▸ hpa)
      omega
    · rw [if_pos hc1, if_neg hc2] at h1
      rw [if_neg hc2, if_pos hc1] at h2
      have hL : 0 < List.count c l := List.count_pos_iff.mpr (hc1 ▸ hpa)
      omega
  · by_cases hc2 : l[b] = c
    · rw [if_neg hc1, if_pos hc2] at h1
      rw [if_pos hc2, if_neg hc1] at h2
      omega
    · rw [if_neg hc1, if_neg hc2] at h1
      rw [if_neg hc2, if_neg hc1] at h2
      omega

/-- The shuffle loop permutes its vector (all swap positions are in range). -/
theorem shuffleLoop_perm (f : Nat → Nat) :
    ∀ (i : Nat) (k : Nat) (l : List Nat), i < l.length →
      List.Perm (shuffleLoop f i k l).1 l := by
  intro i
  induction i with
  | zero => intro k l _; exact List.Perm.refl l
  | succ i ih =>
    intro k l h
    rw [shuffleLoop]
    have hj : r32 f k % (i + 2) < l.length := by
      have : r32 f k % (i + 2) < i + 2 := Nat.mod_lt _ (by omega)
      omega
    have hswap := swapIdx_perm l (i + 1) (r32 f k % (i + 2)) h hj
    have hlen : (swapIdx l (i + 1) (r32 f k % (i + 2))).length = l.length := by
      simp [swapIdx, List.length_set]
    have hi : i < (swapIdx l (i + 1) (r32 f k % (i + 2))).length := by omega
    exact (ih (k + 1) _ hi).trans hswap

/-- Lines 208–213: the shuffled index vector is a permutation of
`0, …, nAccounts - 1`. -/
theorem shuffle_perm_range (f : Nat → Nat) (n k : Nat) :
    List.Perm (shuffleLoop f (n - 1) k (List.range n)).1 (List.range n) := by
  cases n with
  | zero => exact List.Perm.refl _
  | succ n =>
    apply shuffleLoop_perm
    rw [List.length_range]
    omega

/-- Line 145: processing account `j` with the memoized sequence covering
exactly `0, …, j - 1` extends it to cover `0, …, j`. -/
theorem acctStep1_addrs {f : Nat → Nat} {nSlots j k : Nat}
    {batch : List (ByteStr × AccountData)}
    {out : List (ByteStr × AccountData) × List ByteStr × List WEv × Nat}
    (h : acctStep1 f nSlots j k ((List.range j).map addrOf) batch = some out) :
    out.2.1 = (List.range (j + 1)).map addrOf := by
  simp only [acctStep1] at h
  split at h
  · exact Option.noConfusion h
  · cases Option.some.inj h
    show (if ((List.range j).map addrOf).length ≤ j then
        ((List.range j).map addrOf) ++ [addrOf j] else (List.range j).map addrOf)
      = (List.range (j + 1)).map addrOf
    rw [if_pos (by simp)]
    rw [List.range_succ, List.map_append]
    rfl

theorem batchLoop1_addrs {f : Nat → Nat} {nSlots : Nat} :
    ∀ {c j k : Nat} {batch : List (ByteStr × AccountData)}
      {out : List (ByteStr × AccountData) × List ByteStr × List WEv × Nat},
      batchLoop1 f nSlots c j k ((List.range j).map addrOf) batch = some out →
      out.2.1 = (List.range (j + c)).map addrOf := by
  intro c
  induction c with
  | zero =>
    intro j k batch out h
    rw [batchLoop1] at h
    cases Option.some.inj h
    rfl
  | succ c ih =>
    intro j k batch out h
    rw [batchLoop1] at h
    split at h
    · exact Option.noConfusion h
    · rename_i batch' addrs' tr k' heq
      split at h
      · exact Option.noConfusion h
      · rename_i bF aF trF kF heq'
        cases Option.some.inj h
        have ha : addrs' = (List.range (j + 1)).map addrOf :=
          acctStep1_addrs heq
        rw [ha] at heq'
        have hrec := @ih (j + 1) k' batch' (bF, aF, trF, kF) heq'
        have hadd : j + 1 + c = j + (c + 1) := by omega
        rw [hadd] at hrec
        exact hrec

theorem runBatches1_addrs {f : Nat → Nat} {nSlots n kC : Nat} (hk : 0 < kC) :
    ∀ (fuel : Nat) (i k : Nat)
      (res : List (List (ByteStr × AccountData) × Nat) × List ByteStr × List WEv × Nat),
      n ≤ i + fuel * kC →
      runBatches1 f nSlots n kC (loopStartsAux fuel i n kC)
        ((List.range i).map addrOf) k = some res →
      res.2.1 = (List.range (max n i)).map addrOf := by
  intro fuel
  induction fuel with
  | zero =>
    intro i k res hle h
    rw [loopStartsAux, runBatches1] at h
    cases Option.some.inj h
    have hmax : max n i = i := by omega
    rw [hmax]
  | succ fuel ih =>
    intro i k res hle h
    rw [loopStartsAux] at h
    by_cases hib : i < n
    · rw [if_pos hib, runBatches1] at h
      split at h
      · exact Option.noConfusion h
      · rename_i bd addrs' tr k' heq
        split at h
        · exact Option.noConfusion h
        · rename_i bs aF trF kF heq'
          cases Option.some.inj h
          have haddr : addrs' = (List.range (min (i + kC) n)).map addrOf := by
            have hb := @batchLoop1_addrs f nSlots (min (i + kC) n - i) i k []
              (bd, addrs', tr, k') heq
            have heqn : i + (min (i + kC) n - i) = min (i + kC) n := by omega
            rw [heqn] at hb
            exact hb
          have hexp : i + (fuel + 1) * kC = i + kC + fuel * kC := by ring
          by_cases hin : i + kC < n
          · have hmin : min (i + kC) n = i + kC := by omega
            rw [hmin] at haddr
            rw [haddr] at heq'
            have hrec := ih (i + kC) k' (bs, aF, trF, kF) (by omega) heq'
            have hmax1 : max n (i + kC) = n := by omega
            have hmax2 : max n i = n := by omega
            rw [hmax1] at hrec
            rw [hmax2]
            exact hrec
          · have hmin : min (i + kC) n = n := by omega
            rw [hmin] at haddr
            have hstarts : loopStartsAux fuel (i + kC) n kC = [] := by
              cases fuel with
              | zero => rw [loopStartsAux]
              | succ fuel => rw [loopStartsAux, if_neg (by omega)]
            rw [hstarts, runBatches1] at heq'
            cases Option.some.inj heq'
            have hmax : max n i = n := by omega
            rw [hmax]
            exact haddr
    · rw [if_neg hib, runBatches1] at h
      cases Option.some.inj h
      have hmax : max n i = i := by omega
      rw [hmax]

/-- Lines 126–195: after phase 1 the memoized address vector is exactly the
`nAccounts` addresses, in index order. -/
theorem phase1_addrs {f : Nat → Nat} {nSlots n kC : Nat} (hk : 0 < kC)
    {res : List (List (ByteStr × AccountData) × Nat) × List ByteStr × List WEv × Nat}
    (h : runBatches1 f nSlots n kC (loopStarts n kC) [] 0 = some res) :
    res.2.1 = (List.range n).map addrOf := by
  have h0 : ((List.range 0).map addrOf) = ([] : List ByteStr) := rfl
  rw [← h0] at h
  have hle : n ≤ 0 + n * kC := by
    have := Nat.le_mul_of_pos_right n hk
    omega
  have hres := runBatches1_addrs hk n 0 0 res hle h
  rw [Nat.max_zero] at hres
  exact hres

/-! ### Determinism: a run depends only on the draws it consumes -/

/-- `f` and `g` agree on every draw index below `b`. -/
def AgreeBelow (f g : Nat → Nat) (b : Nat) : Prop := ∀ i, i < b → f i = g i

theorem agree_mono {f g : Nat → Nat} {b b' : Nat} (h : AgreeBelow f g b)
    (hb : b' ≤ b) : AgreeBelow f g b' :=
  fun i hi => h i (lt_of_lt_of_le hi hb)

theorem agree_r32 {f g : Nat → Nat} {b k : Nat} (h : AgreeBelow f g b)
    (hk : k < b) : r32 g k = r32 f k := by
  rw [r32, r32, h k hk]

theorem acctBytes_agree {f g : Nat → Nat} {b k : Nat} (h : AgreeBelow f g b)
    (hk : k + 40 ≤ b) : acctBytes g k = acctBytes f k := by
  rw [acctBytes, acctBytes]
  refine List.map_congr_left ?_
  intro bb hbb
  have hlt : bb < 40 := List.mem_range.mp hbb
  rw [agree_r32 h (by omega)]

theorem slotVal1_snd (f : Nat → Nat) (k : Nat) :
    (slotVal1 f k).2 = if r32 f k % 100 < 30 then k + 1 else k + 33 := by
  simp only [slotVal1]
  by_cases h1 : r32 f k % 100 < 20
  · rw [if_pos h1, if_pos (by omega)]
  · by_cases h2 : r32 f k % 100 < 30
    · rw [if_neg h1, if_pos h2, if_pos h2]
    · rw [if_neg h1, if_neg h2, if_neg h2]

theorem slotVal1_mono (f : Nat → Nat) (k : Nat) : k < (slotVal1 f k).2 := by
  rw [slotVal1_snd]
  by_cases h : r32 f k % 100 < 30
  · rw [if_pos h]; omega
  · rw [if_neg h]; omega

theorem slotVal1_agree {f g : Nat → Nat} {b k : Nat} (h : AgreeBelow f g b)
    (hk : (slotVal1 f k).2 ≤ b) : slotVal1 g k = slotVal1 f k := by
  have hkb : k < b := lt_of_lt_of_le (slotVal1_mono f k) hk
  have hr : r32 g k = r32 f k := agree_r32 h hkb
  simp only [slotVal1, hr]
  by_cases h1 : r32 f k % 100 < 20
  · rw [if_pos h1, if_pos h1]
  · by_cases h2 : r32 f k % 100 < 30
    · rw [if_neg h1, if_neg h1, if_pos h2, if_pos h2]
    · rw [if_neg h1, if_neg h1, if_neg h2, if_neg h2]
      have hsnd : (slotVal1 f k).2 = k + 33 := by
        rw [slotVal1_snd, if_neg h2]
      refine congrArg (fun v => (v, k + 33)) ?_
      refine List.map_congr_left ?_
      intro bb hbb
      have hlt : bb < 32 := List.mem_range.mp hbb
      rw [agree_r32 h (by omega)]

theorem slotsLoop1_mono (f : Nat → Nat) (j : Nat) (addr : ByteStr) :
    ∀ (c s k : Nat) (slots : List (ByteStr × ByteStr)),
      k ≤ (slotsLoop1 f j addr c s k slots).2.2 := by
  intro c
  induction c with
  | zero => intro s k slots; exact Nat.le_refl k
  | succ c ih =>
    intro s k slots
    show k ≤ (slotsLoop1 f j addr c (s + 1) (slotVal1 f k).2
      (mapInsert (slotKeyOf j s) (slotVal1 f k).1 slots)).2.2
    exact le_trans (Nat.le_of_lt (slotVal1_mono f k)) (ih (s + 1) (slotVal1 f k).2 _)

theorem slotsLoop1_agree {f g : Nat → Nat} {b : Nat} (h : AgreeBelow f g b)
    (j : Nat) (addr : ByteStr) :
    ∀ (c s k : Nat) (slots : List (ByteStr × ByteStr)),
      (slotsLoop1 f j addr c s k slots).2.2 ≤ b →
      slotsLoop1 g j addr c s k slots = slotsLoop1 f j addr c s k slots := by
  intro c
  induction c with
  | zero => intro s k slots _; rfl
  | succ c ih =>
    intro s k slots hb
    have hrest_le : (slotsLoop1 f j addr c (s + 1) (slotVal1 f k).2
        (mapInsert (slotKeyOf j s) (slotVal1 f k).1 slots)).2.2 ≤ b := hb
    have hp2 : (slotVal1 f k).2 ≤ b :=
      le_trans (slotsLoop1_mono f j addr c (s + 1) (slotVal1 f k).2 _) hrest_le
    have hp : slotVal1 g k = slotVal1 f k := slotVal1_agree h hp2
    have hrec := ih (s + 1) (slotVal1 f k).2
      (mapInsert (slotKeyOf j s) (slotVal1 f k).1 slots) hrest_le
    simp only [slotsLoop1, hp]
    rw [hrec]

theorem acctStep1_mono {f : Nat → Nat} {nSlots j k : Nat} {addrs : List ByteStr}
    {batch : List (ByteStr × AccountData)}
    {out : List (ByteStr × AccountData) × List ByteStr × List WEv × Nat}
    (h : acctStep1 f nSlots j k addrs batch = some out) : k + 41 ≤ out.2.2.2 := by
  simp only [acctStep1] at h
  split at h
  · exact Option.noConfusion h
  · cases Option.some.inj h
    exact slotsLoop1_mono f j (addrOf j) _ 0 (k + 41) _

theorem acctStep1_agree {f g : Nat → Nat} {b : Nat} (hag : AgreeBelow f g b)
    {nSlots j k : Nat} {addrs : List ByteStr}
    {batch : List (ByteStr × AccountData)}
    {out : List (ByteStr × AccountData) × List ByteStr × List WEv × Nat}
    (h : acctStep1 f nSlots j k addrs batch = some out) (hb : out.2.2.2 ≤ b) :
    acctStep1 g nSlots j k addrs batch = some out := by
  have hm := acctStep1_mono h
  simp only [acctStep1] at h ⊢
  split at h
  · exact Option.noConfusion h
  · rename_i vS heq
    cases Option.some.inj h
    have hr : r32 g (k + 40) = r32 f (k + 40) := agree_r32 hag (by omega)
    have haby : acctBytes g k = acctBytes f k := acctBytes_agree hag (by omega)
    have hslots := slotsLoop1_agree hag j (addrOf j) vS 0 (k + 41)
      ((mapLookup (addrOf j) batch).getD ⟨[], []⟩).slots hb
    rw [hr]
    split
    · rename_i heq'
      rw [heq] at heq'
      exact Option.noConfusion heq'
    · rename_i vS' heq'
      rw [heq] at heq'
      cases Option.some.inj heq'
      rw [haby, hslots]

theorem batchLoop1_mono {f : Nat → Nat} {nSlots : Nat} :
    ∀ {c j k : Nat} {addrs : List ByteStr} {batch : List (ByteStr × AccountData)}
      {out : List (ByteStr × AccountData) × List ByteStr × List WEv × Nat},
      batchLoop1 f nSlots c j k addrs batch = some out → k ≤ out.2.2.2 := by
  intro c
  induction c with
  | zero =>
    intro j k addrs batch out h
    rw [batchLoop1] at h
    cases Option.some.inj h
    exact Nat.le_refl k
  | succ c ih =>
    intro j k addrs batch out h
    rw [batchLoop1] at h
    split at h
    · exact Option.noConfusion h
    · rename_i batch' addrs' tr k' heq
      split at h
      · exact Option.noConfusion h
      · rename_i bF aF trF kF heq'
        cases Option.some.inj h
        have h1 : k + 41 ≤ k' := acctStep1_mono heq
        have h2 : k' ≤ kF := @ih (j + 1) k' addrs' batch' (bF, aF, trF, kF) heq'
        show k ≤ kF
        omega

theorem batchLoop1_agree {f g : Nat → Nat} {b : Nat} (hag : AgreeBelow f g b)
    {nSlots : Nat} :
    ∀ {c j k : Nat} {addrs : List ByteStr} {batch : List (ByteStr × AccountData)}
      {out : List (ByteStr × AccountData) × List ByteStr × List WEv × Nat},
      batchLoop1 f nSlots c j k addrs batch = some out → out.2.2.2 ≤ b →
      batchLoop1 g nSlots c j k addrs batch = some out := by
  intro c
  induction c with
  | zero =>
    intro j k addrs batch out h _
    rw [batchLoop1] at h ⊢
    exact h
  | succ c ih =>
    intro j k addrs batch out h hb
    rw [batchLoop1] at h
    split at h
    · exact Option.noConfusion h
    · rename_i batch' addrs' tr k' heq
      split at h
      · exact Option.noConfusion h
      · rename_i bF aF trF kF heq'
        cases Option.some.inj h
        have hkF : kF ≤ b := hb
        have hk' : k' ≤ kF := @batchLoop1_mono f nSlots c (j + 1) k' addrs' batch'
          (bF, aF, trF, kF) heq'
        have hstep : acctStep1 g nSlots j k addrs batch = some (batch', addrs', tr, k') :=
          acctStep1_agree hag heq (le_trans hk' hkF)
        have hrec : batchLoop1 g nSlots c (j + 1) k' addrs' batch' = some (bF, aF, trF, kF) :=
          @ih (j + 1) k' addrs' batch' (bF, aF, trF, kF) heq' hkF
        rw [batchLoop1]
        simp only [hstep, hrec]

theorem runBatches1_mono {f : Nat → Nat} {nSlots n kC : Nat} :
    ∀ {starts : List Nat} {addrs : List ByteStr} {k : Nat}
      {res : List (List (ByteStr × AccountData) × Nat) × List ByteStr × List WEv × Nat},
      runBatches1 f nSlots n kC starts addrs k = some res → k ≤ res.2.2.2 := by
  intro starts
  induction starts with
  | nil =>
    intro addrs k res h
    rw [runBatches1] at h
    cases Option.some.inj h
    exact Nat.le_refl k
  | cons i rest ih =>
    intro addrs k res h
    rw [runBatches1] at h
    split at h
    · exact Option.noConfusion h
    · rename_i bd addrs' tr k' heq
      split at h
      · exact Option.noConfusion h
      · rename_i bs aF trF kF heq'
        cases Option.some.inj h
        have h1 : k ≤ k' := @batchLoop1_mono f nSlots _ i k addrs [] (bd, addrs', tr, k') heq
        have h2 : k' ≤ kF := @ih addrs' k' (bs, aF, trF, kF) heq'
        show k ≤ kF
        omega

theorem runBatches1_agree {f g : Nat → Nat} {b : Nat} (hag : AgreeBelow f g b)
    {nSlots n kC : Nat} :
    ∀ {starts : List Nat} {addrs : List ByteStr} {k : Nat}
      {res : List (List (ByteStr × AccountData) × Nat) × List ByteStr × List WEv × Nat},
      runBatches1 f nSlots n kC starts addrs k = some res → res.2.2.2 ≤ b →
      runBatches1 g nSlots n kC starts addrs k = some res := by
  intro starts
  induction starts with
  | nil =>
    intro addrs k res h _
    rw [runBatches1] at h ⊢
    exact h
  | cons i rest ih =>
    intro addrs k res h hb
    rw [runBatches1] at h
    split at h
    · exact Option.noConfusion h
    · rename_i bd addrs' tr k' heq
      split at h
      · exact Option.noConfusion h
      · rename_i bs aF trF kF heq'
        cases Option.some.inj h
        have hkF : kF ≤ b := hb
        have hk' : k' ≤ kF := @runBatches1_mono f nSlots n kC rest addrs' k'
          (bs, aF, trF, kF) heq'
        have hstep : batchLoop1 g nSlots (min (i + kC) n - i) i k addrs []
            = some (bd, addrs', tr, k') :=
          batchLoop1_agree hag heq (le_trans hk' hkF)
        have hrec : runBatches1 g nSlots n kC rest addrs' k' = some (bs, aF, trF, kF) :=
          @ih addrs' k' (bs, aF, trF, kF) heq' hkF
        rw [runBatches1]
        simp only [hstep, hrec]

theorem shuffleLoop_mono (f : Nat → Nat) :
    ∀ (i k : Nat) (l : List Nat), k ≤ (shuffleLoop f i k l).2 := by
  intro i
  induction i with
  | zero => intro k l; exact Nat.le_refl k
  | succ i ih =>
    intro k l
    rw [shuffleLoop]
    exact le_trans (Nat.le_succ k) (ih (k + 1) _)

theorem shuffleLoop_agree {f g : Nat → Nat} {b : Nat} (hag : AgreeBelow f g b) :
    ∀ (i k : Nat) (l : List Nat), (shuffleLoop f i k l).2 ≤ b →
      shuffleLoop g i k l = shuffleLoop f i k l := by
  intro i
  induction i with
  | zero => intro k l _; rfl
  | succ i ih =>
    intro k l hb
    have hend : (shuffleLoop f i (k + 1) (swapIdx l (i + 1) (r32 f k % (i + 2)))).2 ≤ b := hb
    have hk : k < b :=
      lt_of_lt_of_le (lt_of_lt_of_le (Nat.lt_succ_self k)
        (shuffleLoop_mono f i (k + 1) _)) hend
    have hr : r32 g k = r32 f k := agree_r32 hag hk
    rw [shuffleLoop, shuffleLoop, hr]
    exact ih (k + 1) _ hend

theorem slotStep2_snd {f : Nat → Nat} {nSlots aidx k : Nat}
    {r : (ByteStr × ByteStr) × Nat}
    (h : slotStep2 f nSlots aidx k = some r) : r.2 = k + 33 := by
  simp only [slotStep2] at h
  split at h
  · exact Option.noConfusion h
  · cases Option.some.inj h
    rfl

theorem slotStep2_agree {f g : Nat → Nat} {b : Nat} (hag : AgreeBelow f g b)
    {nSlots aidx k : Nat} {r : (ByteStr × ByteStr) × Nat}
    (h : slotStep2 f nSlots aidx k = some r) (hb : r.2 ≤ b) :
    slotStep2 g nSlots aidx k = some r := by
  have hsnd := slotStep2_snd h
  simp only [slotStep2] at h ⊢
  split at h
  · exact Option.noConfusion h
  · rename_i slotIdx heq
    cases Option.some.inj h
    have hr : r32 g k = r32 f k := agree_r32 hag (by omega)
    have hbytes : (List.range 32).map (fun bb => r32 g (k + 1 + bb) % 256)
        = (List.range 32).map (fun bb => r32 f (k + 1 + bb) % 256) := by
      refine List.map_congr_left ?_
      intro bb hbb
      have hlt : bb < 32 := List.mem_range.mp hbb
      rw [agree_r32 hag (by omega)]
    rw [hr]
    split
    · rename_i heq'
      rw [heq] at heq'
      exact Option.noConfusion heq'
    · rename_i slotIdx' heq'
      rw [heq] at heq'
      cases Option.some.inj heq'
      rw [hbytes]

theorem slotsLoop2_mono {f : Nat → Nat} {nSlots aidx : Nat} {addr : ByteStr} :
    ∀ {c k : Nat} {slots : List (ByteStr × ByteStr)}
      {out : List (ByteStr × ByteStr) × List WEv × Nat},
      slotsLoop2 f nSlots aidx addr c k slots = some out → k ≤ out.2.2 := by
  intro c
  induction c with
  | zero =>
    intro k slots out h
    rw [slotsLoop2] at h
    cases Option.some.inj h
    exact Nat.le_refl k
  | succ c ih =>
    intro k slots out h
    rw [slotsLoop2] at h
    split at h
    · exact Option.noConfusion h
    · rename_i kv k1 heq1
      split at h
      · exact Option.noConfusion h
      · rename_i res tr k2 heq2
        cases Option.some.inj h
        have h1 : k1 = k + 33 := slotStep2_snd heq1
        have h2 : k1 ≤ k2 := @ih k1 (mapInsert kv.1 kv.2 slots) (res, tr, k2) heq2
        show k ≤ k2
        omega

theorem slotsLoop2_agree {f g : Nat → Nat} {b : Nat} (hag : AgreeBelow f g b)
    {nSlots aidx : Nat} {addr : ByteStr} :
    ∀ {c k : Nat} {slots : List (ByteStr × ByteStr)}
      {out : List (ByteStr × ByteStr) × List WEv × Nat},
      slotsLoop2 f nSlots aidx addr c k slots = some out → out.2.2 ≤ b →
      slotsLoop2 g nSlots aidx addr c k slots = some out := by
  intro c
  induction c with
  | zero =>
    intro k slots out h _
    rw [slotsLoop2] at h ⊢
    exact h
  | succ c ih =>
    intro k slots out h hb
    rw [slotsLoop2] at h
    split at h
    · exact Option.noConfusion h
    · rename_i kv k1 heq1
      split at h
      · exact Option.noConfusion h
      · rename_i res tr k2 heq2
        cases Option.some.inj h
        have hk2 : k2 ≤ b := hb
        have hk1 : k1 ≤ k2 := @slotsLoop2_mono f nSlots aidx addr c k1
          (mapInsert kv.1 kv.2 slots) (res, tr, k2) heq2
        have hstep : slotStep2 g nSlots aidx k = some (kv, k1) :=
          slotStep2_agree hag heq1 (le_trans hk1 hk2)
        have hrec : slotsLoop2 g nSlots aidx addr c k1 (mapInsert kv.1 kv.2 slots)
            = some (res, tr, k2) :=
          @ih k1 (mapInsert kv.1 kv.2 slots) (res, tr, k2) heq2 hk2
        rw [slotsLoop2]
        simp only [hstep, hrec]

theorem acctStep2_mono {f : Nat → Nat} {nSlots : Nat} {indices : List Nat}
    {addrs : List ByteStr} {j k : Nat}
    {batch : List (ByteStr × List (ByteStr × ByteStr))}
    {out : List (ByteStr × List (ByteStr × ByteStr)) × List WEv × Nat}
    (h : acctStep2 f nSlots indices addrs j k batch = some out) : k ≤ out.2.2 := by
  simp only [acctStep2] at h
  split at h
  · exact Option.noConfusion h
  · rename_i slots tr k' heq
    cases Option.some.inj h
    exact slotsLoop2_mono heq

theorem acctStep2_agree {f g : Nat → Nat} {b : Nat} (hag : AgreeBelow f g b)
    {nSlots : Nat} {indices : List Nat} {addrs : List ByteStr} {j k : Nat}
    {batch : List (ByteStr × List (ByteStr × ByteStr))}
    {out : List (ByteStr × List (ByteStr × ByteStr)) × List WEv × Nat}
    (h : acctStep2 f nSlots indices addrs j k batch = some out) (hb : out.2.2 ≤ b) :
    acctStep2 g nSlots indices addrs j k batch = some out := by
  simp only [acctStep2] at h ⊢
  split at h
  · exact Option.noConfusion h
  · rename_i slots tr k' heq
    cases Option.some.inj h
    have hsl := slotsLoop2_agree hag heq hb
    simp only [hsl]

theorem batchLoop2_mono {f : Nat → Nat} {nSlots : Nat} {indices : List Nat}
    {addrs : List ByteStr} :
    ∀ {c j k : Nat} {batch : List (ByteStr × List (ByteStr × ByteStr))}
      {out : List (ByteStr × List (ByteStr × ByteStr)) × List WEv × Nat},
      batchLoop2 f nSlots indices addrs c j k batch = some out → k ≤ out.2.2 := by
  intro c
  induction c with
  | zero =>
    intro j k batch out h
    rw [batchLoop2] at h
    cases Option.some.inj h
    exact Nat.le_refl k
  | succ c ih =>
    intro j k batch out h
    rw [batchLoop2] at h
    split at h
    · exact Option.noConfusion h
    · rename_i batch' tr k' heq
      split at h
      · exact Option.noConfusion h
      · rename_i bF trF kF heq'
        cases Option.some.inj h
        have h1 : k ≤ k' := acctStep2_mono heq
        have h2 : k' ≤ kF := @ih (j + 1) k' batch' (bF, trF, kF) heq'
        show k ≤ kF
        omega

theorem batchLoop2_agree {f g : Nat → Nat} {b : Nat} (hag : AgreeBelow f g b)
    {nSlots : Nat} {indices : List Nat} {addrs : List ByteStr} :
    ∀ {c j k : Nat} {batch : List (ByteStr × List (ByteStr × ByteStr))}
      {out : List (ByteStr × List (ByteStr × ByteStr)) × List WEv × Nat},
      batchLoop2 f nSlots indices addrs c j k batch = some out → out.2.2 ≤ b →
      batchLoop2 g nSlots indices addrs c j k batch = some out := by
  intro c
  induction c with
  | zero =>
    intro j k batch out h _
    rw [batchLoop2] at h ⊢
    exact h
  | succ c ih =>
    intro j k batch out h hb
    rw [batchLoop2] at h
    split at h
    · exact Option.noConfusion h
    · rename_i batch' tr k' heq
      split at h
      · exact Option.noConfusion h
      · rename_i bF trF kF heq'
        cases Option.some.inj h
        have hkF : kF ≤ b := hb
        have hk' : k' ≤ kF := @batchLoop2_mono f nSlots indices addrs c (j + 1) k'
          batch' (bF, trF, kF) heq'
        have hstep : acctStep2 g nSlots indices addrs j k batch
            = some (batch', tr, k') :=
          acctStep2_agree hag heq (le_trans hk' hkF)
        have hrec : batchLoop2 g nSlots indices addrs c (j + 1) k' batch'
            = some (bF, trF, kF) :=
          @ih (j + 1) k' batch' (bF, trF, kF) heq' hkF
        rw [batchLoop2]
        simp only [hstep, hrec]

theorem runBatches2_mono {f : Nat → Nat} {nSlots mMod kC : Nat}
    {indices : List Nat} {addrs : List ByteStr} :
    ∀ {starts : List Nat} {k : Nat}
      {res : List (List (ByteStr × List (ByteStr × ByteStr)) × Nat) × List WEv × Nat},
      runBatches2 f nSlots mMod kC indices addrs starts k = some res → k ≤ res.2.2 := by
  intro starts
  induction starts with
  | nil =>
    intro k res h
    rw [runBatches2] at h
    cases Option.some.inj h
    exact Nat.le_refl k
  | cons i rest ih =>
    intro k res h
    rw [runBatches2] at h
    split at h
    · exact Option.noConfusion h
    · rename_i bd tr k' heq
      split at h
      · exact Option.noConfusion h
      · rename_i bs trF kF heq'
        cases Option.some.inj h
        have h1 : k ≤ k' := @batchLoop2_mono f nSlots indices addrs _ i k []
          (bd, tr, k') heq
        have h2 : k' ≤ kF := @ih k' (bs, trF, kF) heq'
        show k ≤ kF
        omega

theorem runBatches2_agree {f g : Nat → Nat} {b : Nat} (hag : AgreeBelow f g b)
    {nSlots mMod kC : Nat} {indices : List Nat} {addrs : List ByteStr} :
    ∀ {starts : List Nat} {k : Nat}
      {res : List (List (ByteStr × List (ByteStr × ByteStr)) × Nat) × List WEv × Nat},
      runBatches2 f nSlots mMod kC indices addrs starts k = some res → res.2.2 ≤ b →
      runBatches2 g nSlots mMod kC indices addrs starts k = some res := by
  intro starts
  induction starts with
  | nil =>
    intro k res h _
    rw [runBatches2] at h ⊢
    exact h
  | cons i rest ih =>
    intro k res h hb
    rw [runBatches2] at h
    split at h
    · exact Option.noConfusion h
    · rename_i bd tr k' heq
      split at h
      · exact Option.noConfusion h
      · rename_i bs trF kF heq'
        cases Option.some.inj h
        have hkF : kF ≤ b := hb
        have hk' : k' ≤ kF := @runBatches2_mono f nSlots mMod kC indices addrs rest k'
          (bs, trF, kF) heq'
        have hstep : batchLoop2 g nSlots indices addrs (min (i + kC) mMod - i) i k []
            = some (bd, tr, k') :=
          batchLoop2_agree hag heq (le_trans hk' hkF)
        have hrec : runBatches2 g nSlots mMod kC indices addrs rest k'
            = some (bs, trF, kF) :=
          @ih k' (bs, trF, kF) heq' hkF
        rw [runBatches2]
        simp only [hstep, hrec]

/-! ## Claims -/

/-- C1: in every run in which phase 1 produces fewer than 1,000,000 batches,
the version identifiers passed to `upsert` are strictly increasing across the
full run: the phase-1 batch starting at loop index `i` commits at version
`i / kCommit + 1`, the phase-2 batch starting at loop index `i` commits at
version `1000000 + i / kCommit + 1`, and no phase-2 identifier equals (or even
fails to exceed) any phase-1 identifier. -/
theorem versions_strictly_increasing (n m kC : Nat) (hk : 0 < kC)
    (hB : (p1Versions n kC).length < 1000000) :
    List.Chain' (· < ·) (p1Versions n kC ++ p2Versions (mClamp m n) kC) ∧
    p1Versions n kC = (loopStarts n kC).map (fun i => i / kC + 1) ∧
    p2Versions (mClamp m n) kC =
      (loopStarts (mClamp m n) kC).map (fun i => 1000000 + i / kC + 1) ∧
    (∀ v ∈ p1Versions n kC, ∀ w ∈ p2Versions (mClamp m n) kC, v < w ∧ v ≠ w) := by
  have hstep : ∀ a b : Nat, a + kC ≤ b → a / kC < b / kC := by
    intro a b hab
    have h1 : (a + kC) / kC ≤ b / kC := Nat.div_le_div_right hab
    have h2 : (a + kC) / kC = a / kC + 1 := Nat.add_div_right a hk
    omega
  have hchain1 : List.Chain' (· < ·) (p1Versions n kC) := by
    simp only [p1Versions, loopStarts, List.chain'_map]
    refine List.Chain'.imp ?_ (loopStartsAux_chain kC n 0 n)
    intro a b hab
    have := hstep a b hab
    simp only [p1Version]
    omega
  have hchain2 : List.Chain' (· < ·) (p2Versions (mClamp m n) kC) := by
    simp only [p2Versions, loopStarts, List.chain'_map]
    refine List.Chain'.imp ?_ (loopStartsAux_chain kC (mClamp m n) 0 (mClamp m n))
    intro a b hab
    have := hstep a b hab
    simp only [p2Version]
    omega
  have hp : ∀ v ∈ p1Versions n kC, v < 1000001 := by
    intro v hv
    simp only [p1Versions, loopStarts, List.mem_map] at hv
    obtain ⟨x, hx, rfl⟩ := hv
    have hbd := loopStartsAux_bound hk n 0 n x hx
    rw [Nat.zero_div] at hbd
    have hlen : (p1Versions n kC).length = (loopStartsAux n 0 n kC).length := by
      simp only [p1Versions, loopStarts, List.length_map]
    rw [← hlen] at hbd
    simp only [p1Version]
    omega
  have hq : ∀ w ∈ p2Versions (mClamp m n) kC, 1000001 ≤ w := by
    intro w hw
    simp only [p2Versions, loopStarts, List.mem_map] at hw
    obtain ⟨x, hx, rfl⟩ := hw
    simp only [p2Version]
    exact Nat.add_le_add_right (Nat.le_add_right 1000000 (x / kC)) 1
  have hcross : ∀ v ∈ p1Versions n kC, ∀ w ∈ p2Versions (mClamp m n) kC, v < w :=
    fun v hv w hw => lt_of_lt_of_le (hp v hv) (hq w hw)
  refine ⟨List.chain'_append.mpr ⟨hchain1, hchain2, ?_⟩, rfl, rfl,
    fun v hv w hw => ⟨hcross v hv w hw, Nat.ne_of_lt (hcross v hv w hw)⟩⟩
  intro x hx y hy
  obtain ⟨hne, rfl⟩ := List.mem_getLast?_eq_getLast hx
  exact hcross _ (List.getLast_mem hne) y (List.mem_of_mem_head? hy)

/-- C1 witness: a concrete run with 3 phase-1 batches (versions 1, 2, 3) and
2 phase-2 batches (versions 1000001, 1000002). -/
theorem versions_strictly_increasing_witness :
    List.Chain' (· < ·) (p1Versions 5 2 ++ p2Versions (mClamp 3 5) 2) :=
  (versions_strictly_increasing 5 3 2 (by decide) (by decide)).1

/-- C3: within each batch of either phase the deduplicated structure maps each
Address to at most one entry and each (Address, SlotKey) pair to at most one
value, with a later write within the batch overwriting an earlier one
(latest-write-wins), accounts and slots enumerated in ascending byte order of
their keys; consequently each Address and each SlotKey appears at most once in
the assembled UpdateList. -/
theorem dedup_unique_sorted
    (f f₂ : Nat → Nat) (nSlots nSlots₂ c j k c₂ j₂ k₂ : Nat)
    (addrs addrs₂ : List ByteStr) (indices : List Nat)
    (out : List (ByteStr × AccountData) × List ByteStr × List WEv × Nat)
    (out₂ : List (ByteStr × List (ByteStr × ByteStr)) × List WEv × Nat)
    (h1 : batchLoop1 f nSlots c j k addrs [] = some out)
    (h2 : batchLoop2 f₂ nSlots₂ indices addrs₂ c₂ j₂ k₂ [] = some out₂) :
    SortedMap out.1 ∧ (∀ e ∈ out.1, SortedMap e.2.slots) ∧
    (mapKeys out.1).Nodup ∧ (∀ e ∈ out.1, (mapKeys e.2.slots).Nodup) ∧
    ((buildBatch1 out.1).map AcctUpd.key).Nodup ∧
    (∀ u ∈ buildBatch1 out.1, (u.children.map SlotUpd.key).Nodup) ∧
    SortedMap out₂.1 ∧ (∀ e ∈ out₂.1, SortedMap e.2) ∧
    ((buildBatch2 out₂.1).map AcctUpd.key).Nodup ∧
    (∀ u ∈ buildBatch2 out₂.1, (u.children.map SlotUpd.key).Nodup) ∧
    (∀ (kk v₁ v₂ : ByteStr) (m : List (ByteStr × ByteStr)),
      mapLookup kk (mapInsert kk v₂ (mapInsert kk v₁ m)) = some v₂) := by
  have hnil1 : Batch1Inv f [] :=
    ⟨List.Pairwise.nil, fun e he => absurd he (List.not_mem_nil e)⟩
  have hnil2 : Batch2Inv [] :=
    ⟨List.Pairwise.nil, fun e he => absurd he (List.not_mem_nil e)⟩
  have hinv1 : Batch1Inv f out.1 := batchLoop1_inv hnil1 h1
  have hinv2 : Batch2Inv out₂.1 := batchLoop2_inv hnil2 h2
  refine ⟨hinv1.1, fun e he => (hinv1.2 e he).1,
    SortedMap.nodup_keys hinv1.1,
    fun e he => SortedMap.nodup_keys (hinv1.2 e he).1, ?_, ?_,
    hinv2.1, hinv2.2, ?_, ?_,
    fun kk v₁ v₂ m => mapLookup_insert_insert kk v₁ v₂ m⟩
  · rw [buildBatch1_keys]
    exact List.nodup_reverse.mpr (SortedMap.nodup_keys hinv1.1)
  · intro u hu
    rcases mem_buildBatch1 hu with ⟨e, he, rfl⟩
    show ((buildSlotList e.2.slots).map SlotUpd.key).Nodup
    rw [buildSlotList_keys]
    exact List.nodup_reverse.mpr (SortedMap.nodup_keys (hinv1.2 e he).1)
  · rw [buildBatch2_keys]
    exact List.nodup_reverse.mpr (SortedMap.nodup_keys hinv2.1)
  · intro u hu
    rcases mem_buildBatch2 hu with ⟨e, he, rfl⟩
    show ((buildSlotList e.2).map SlotUpd.key).Nodup
    rw [buildSlotList_keys]
    exact List.nodup_reverse.mpr (SortedMap.nodup_keys (hinv2.2 e he))

/-- C3 witness: a concrete two-account phase-1 batch and a concrete one-account
phase-2 batch, on the all-zero draw stream. -/
theorem dedup_unique_sorted_witness :
    SortedMap ((batchLoop1 (fun _ => 0) 1 2 0 0 [] []).getD default).1 :=
  (dedup_unique_sorted (fun _ => 0) (fun _ => 0) 1 1 2 0 0 1 0 0 []
    [addrOf 0, addrOf 1] [0, 1]
    ((batchLoop1 (fun _ => 0) 1 2 0 0 [] []).getD default)
    ((batchLoop2 (fun _ => 0) 1 [0, 1] [addrOf 0, addrOf 1] 1 0 0 []).getD default)
    (by rfl) (by rfl)).1

/-- C4: the batch-level UpdateList handed to the commit call enumerates
account nodes in exactly the reverse of the ascending-key order the
deduplicated map was iterated in (each node is prepended and becomes the new
head), and every slot UpdateList likewise enumerates slot nodes in reverse of
ascending slot-key order — in both phases. -/
theorem updateList_prepend_reversal (bd : List (ByteStr × AccountData))
    (bd2 : List (ByteStr × List (ByteStr × ByteStr)))
    (h1 : SortedMap bd) (h2 : SortedMap bd2) :
    buildBatch1 bd =
      (bd.map (fun e => (⟨e.1, some e.2.value, buildSlotList e.2.slots⟩ : AcctUpd))).reverse ∧
    buildBatch2 bd2 =
      (bd2.map (fun e => (⟨e.1, none, buildSlotList e.2⟩ : AcctUpd))).reverse ∧
    (∀ slots : List (ByteStr × ByteStr),
      buildSlotList slots = (slots.map (fun kv => (⟨kv.1, kv.2⟩ : SlotUpd))).reverse) ∧
    (buildBatch1 bd).map AcctUpd.key = (mapKeys bd).reverse ∧
    (buildBatch2 bd2).map AcctUpd.key = (mapKeys bd2).reverse ∧
    List.Pairwise (· > ·) ((buildBatch1 bd).map AcctUpd.key) ∧
    List.Pairwise (· > ·) ((buildBatch2 bd2).map AcctUpd.key) ∧
    (∀ e ∈ bd, SortedMap e.2.slots →
      List.Pairwise (· > ·) ((buildSlotList e.2.slots).map SlotUpd.key)) := by
  refine ⟨buildBatch1_eq_reverse bd, buildBatch2_eq_reverse bd2,
    buildSlotList_eq_reverse, buildBatch1_keys bd, buildBatch2_keys bd2,
    ?_, ?_, ?_⟩
  · rw [buildBatch1_keys]
    exact List.pairwise_reverse.mpr h1
  · rw [buildBatch2_keys]
    exact List.pairwise_reverse.mpr h2
  · intro e _ hs
    rw [buildSlotList_keys]
    exact List.pairwise_reverse.mpr hs

/-- C4 witness: a concrete sorted two-account batch map and one-account
phase-2 batch map. -/
theorem updateList_prepend_reversal_witness :
    buildBatch1 ((batchLoop1 (fun _ => 0) 1 2 0 0 [] []).getD default).1 =
      (((batchLoop1 (fun _ => 0) 1 2 0 0 [] []).getD default).1.map
        (fun e => (⟨e.1, some e.2.value, buildSlotList e.2.slots⟩ : AcctUpd))).reverse :=
  (updateList_prepend_reversal ((batchLoop1 (fun _ => 0) 1 2 0 0 [] []).getD default).1
    [(addrOf 0, [])] (by decide) (by decide)).1

/-- C6 counterexample: in the concrete run `n=1, nSlots=1, m=1, kC=1` on the
all-zero draw stream, the single phase-2 batch's account Update node carries
no AccountValue at all (`value = none`), refuting the claim that in *every*
batch of either phase the account node carries a freshly drawn 40-byte
AccountValue. -/
theorem account_value_phase2_cex :
    ((fullRun (fun _ => 0) 1 1 1 1).getD default).p2.map
        (fun b => (buildBatch2 b.1).map AcctUpd.value) = [[none]] ∧
    ∀ w : ByteStr, (none : Option ByteStr) ≠ some w :=
  ⟨by rfl, fun w h => Option.noConfusion h⟩

/-- C6 (amended): in every phase-1 batch the account's Update node carries
(Address, AccountValue) with AccountValue the 40-byte blob freshly drawn from
the generator stream at that account's most recent (re)write in the batch;
in phase 2 the account's Update node carries only the Address with its slot
child list and no account value (phase 2 draws no account bytes). -/
theorem account_value_freshness
    (f : Nat → Nat) (n nSlots m kC : Nat) (out : RunOut)
    (h : fullRun f n nSlots m kC = some out) :
    (∀ b ∈ out.p1, ∀ u ∈ buildBatch1 b.1, ∃ w, u.value = some w ∧ w.length = 40) ∧
    (∀ b ∈ out.p1, ∀ e ∈ b.1, ∃ k, e.2.value = acctBytes f k ∧ e.2.value.length = 40) ∧
    (∀ ev ∈ out.trace, ∀ k a v, ev = WEv.acct k a v → v = acctBytes f k ∧ v.length = 40) ∧
    (∀ b ∈ out.p2, ∀ u ∈ buildBatch2 b.1, u.value = none) := by
  obtain ⟨p1, addrs, tr1, k1, p2, tr2, k2, h1, h2, rfl⟩ := fullRun_elim h
  refine ⟨?_, ?_, ?_, ?_⟩
  · intro b hb u hu
    have hinv := runBatches1_batches h1 b hb
    rcases mem_buildBatch1 hu with ⟨e, he, rfl⟩
    obtain ⟨kk, hk⟩ := (hinv.2 e he).2
    exact ⟨e.2.value, rfl, by rw [hk]; exact acctBytes_length f kk⟩
  · intro b hb e he
    have hinv := runBatches1_batches h1 b hb
    obtain ⟨kk, hk⟩ := (hinv.2 e he).2
    exact ⟨kk, hk, by rw [hk]; exact acctBytes_length f kk⟩
  · intro ev hev k a v hevq
    rcases List.mem_append.mp hev with hev | hev
    · have hok := runBatches1_trace h1 ev hev
      subst hevq
      simp only [evOk1] at hok
      exact ⟨hok, by rw [hok]; exact acctBytes_length f k⟩
    · have hok := runBatches2_trace h2 ev hev
      subst hevq
      simp only [evOk2] at hok
  · intro b hb u hu
    rcases mem_buildBatch2 hu with ⟨e, he, rfl⟩
    rfl

set_option maxRecDepth 100000 in
/-- C6 witness: the amended theorem applied to a concrete completed run and
the concrete account node of its first phase-1 batch. -/
theorem account_value_freshness_witness :
    ∃ w, ((buildBatch1 ((((fullRun (fun _ => 0) 1 1 0 1).getD default).p1.getD 0
        default).1)).getD 0 default).value = some w ∧ w.length = 40 :=
  (account_value_freshness (fun _ => 0) 1 1 0 1
    ((fullRun (fun _ => 0) 1 1 0 1).getD default) (by rfl)).1
    (((fullRun (fun _ => 0) 1 1 0 1).getD default).p1.getD 0 default) (by decide)
    ((buildBatch1 ((((fullRun (fun _ => 0) 1 1 0 1).getD default).p1.getD 0
        default).1)).getD 0 default) (by decide)

/-- C7 counterexample: on the constant-25 draw stream in the concrete run
`n=1, nSlots=1, m=1, kC=1`, the first phase-2 slot write (trace position 2,
tagged with draw index 42) has value `replicate 32 25`, although its dice draw
would be `25` (`20 ≤ 25 < 30`), for which the claimed three-variant selection
mandates the last-byte-1 sentinel — phase-2 slot writes are not dice-selected. -/
theorem slot_variant_phase2_cex :
    ((fullRun (fun _ => 25) 1 1 1 1).getD default).trace.get? 2 =
      some (WEv.slot 42 (addrOf 0) (slotKeyOf 0 0) (List.replicate 32 25)) ∧
    20 ≤ r32 (fun _ => 25) 42 % 100 ∧ r32 (fun _ => 25) 42 % 100 < 30 ∧
    (slotVal1 (fun _ => 25) 42).1 = List.replicate 31 0 ++ [1] ∧
    List.replicate 32 25 ≠ List.replicate 31 0 ++ [1] := by
  refine ⟨by rfl, by decide, by decide, by rfl, by decide⟩

/-- C7 (amended): every phase-1 slot write's 32-byte value is selected by one
uniform draw `dice = r() % 100` among exactly three variants — all-zero when
`dice < 20`, only the last byte 1 when `20 ≤ dice < 30`, 32 pseudo-random
bytes otherwise; phase-2 slot writes draw no dice and are always the fully
pseudo-random variant. -/
theorem slot_value_variants
    (f : Nat → Nat) (n nSlots m kC : Nat) (out : RunOut)
    (h : fullRun f n nSlots m kC = some out) :
    ∃ t1 t2, out.trace = t1 ++ t2 ∧
      (∀ ev ∈ t1, ∀ k a sk v, ev = WEv.slot k a sk v →
        v = (slotVal1 f k).1 ∧ v.length = 32 ∧ r32 f k % 100 < 100 ∧
        (r32 f k % 100 < 20 → v = List.replicate 32 0) ∧
        (20 ≤ r32 f k % 100 → r32 f k % 100 < 30 → v = List.replicate 31 0 ++ [1]) ∧
        (30 ≤ r32 f k % 100 →
          v = (List.range 32).map (fun b => r32 f (k + 1 + b) % 256))) ∧
      (∀ ev ∈ t2, ∀ k a sk v, ev = WEv.slot k a sk v →
        v = (List.range 32).map (fun b => r32 f (k + 1 + b) % 256)) := by
  obtain ⟨p1, addrs, tr1, k1, p2, tr2, k2, h1, h2, rfl⟩ := fullRun_elim h
  refine ⟨tr1, tr2, rfl, ?_, ?_⟩
  · intro ev hev k a sk v hevq
    have hok := runBatches1_trace h1 ev hev
    subst hevq
    simp only [evOk1] at hok
    obtain ⟨h100, hlen, hz, hs, hr⟩ := slotVal1_cases f k
    exact ⟨hok, by rw [hok]; exact hlen, h100,
      fun hlt => by rw [hok]; exact hz hlt,
      fun hge hlt => by rw [hok]; exact hs hge hlt,
      fun hge => by rw [hok]; exact hr hge⟩
  · intro ev hev k a sk v hevq
    have hok := runBatches2_trace h2 ev hev
    subst hevq
    simpa only [evOk2] using hok

/-- C7 witness: the amended theorem applied to a concrete completed run. -/
theorem slot_value_variants_witness :
    ∃ t1 t2, ((fullRun (fun _ => 0) 1 1 1 1).getD default).trace = t1 ++ t2 ∧
      (∀ ev ∈ t1, ∀ k a sk v, ev = WEv.slot k a sk v →
        v = (slotVal1 (fun _ => 0) k).1 ∧ v.length = 32 ∧
        r32 (fun _ => 0) k % 100 < 100 ∧
        (r32 (fun _ => 0) k % 100 < 20 → v = List.replicate 32 0) ∧
        (20 ≤ r32 (fun _ => 0) k % 100 → r32 (fun _ => 0) k % 100 < 30 →
          v = List.replicate 31 0 ++ [1]) ∧
        (30 ≤ r32 (fun _ => 0) k % 100 →
          v = (List.range 32).map (fun b => r32 (fun _ => 0) (k + 1 + b) % 256))) ∧
      (∀ ev ∈ t2, ∀ k a sk v, ev = WEv.slot k a sk v →
        v = (List.range 32).map (fun b => r32 (fun _ => 0) (k + 1 + b) % 256)) :=
  slot_value_variants (fun _ => 0) 1 1 1 1
    ((fullRun (fun _ => 0) 1 1 1 1).getD default) (by rfl)

/-- C10: before the phase-2 loop, the accounts-to-modify count is clamped to
the account count (`mModify = min(mModify, nAccounts)`, line 203), so phase 2
selects its accounts from a shuffle — a permutation — of exactly the
`nAccounts` phase-1 indices and never indexes the memoized address sequence
(which holds exactly the `nAccounts` phase-1 addresses) out of range, even
when the `-m` flag exceeds `-n`. -/
theorem phase2_index_safety
    (f : Nat → Nat) (n nSlots m kC : Nat) (hk : 0 < kC) (out : RunOut)
    (h : fullRun f n nSlots m kC = some out) :
    mClamp m n ≤ n ∧
    out.addrs = (List.range n).map addrOf ∧
    out.addrs.length = n ∧
    List.Perm out.indices (List.range n) ∧
    out.indices.length = n ∧
    (∀ x ∈ out.indices, x < n) ∧
    (∀ j, j < mClamp m n → out.indices.getD j 0 < out.addrs.length) := by
  obtain ⟨p1, addrs, tr1, k1, p2, tr2, k2, h1, h2, rfl⟩ := fullRun_elim h
  have haddr : addrs = (List.range n).map addrOf := phase1_addrs hk h1
  have hperm : List.Perm (shuffleLoop f (n - 1) k1 (List.range n)).1 (List.range n) :=
    shuffle_perm_range f n k1
  have hlen : (shuffleLoop f (n - 1) k1 (List.range n)).1.length = n := by
    rw [hperm.length_eq, List.length_range]
  have hmem : ∀ x ∈ (shuffleLoop f (n - 1) k1 (List.range n)).1, x < n := by
    intro x hx
    have := hperm.mem_iff.mp hx
    exact List.mem_range.mp this
  have halen : addrs.length = n := by rw [haddr, List.length_map, List.length_range]
  refine ⟨Nat.min_le_right m n, haddr, halen, hperm, hlen, hmem, ?_⟩
  intro j hj
  have hjn : j < (shuffleLoop f (n - 1) k1 (List.range n)).1.length := by
    have := Nat.min_le_right m n
    rw [hlen]
    exact lt_of_lt_of_le hj (by simp [mClamp])
  rw [List.getD_eq_getElem _ 0 hjn, halen]
  exact hmem _ (List.getElem_mem hjn)

/-- C10 witness: a concrete run with `-m` (3) exceeding `-n` (2). -/
theorem phase2_index_safety_witness :
    ((fullRun (fun _ => 0) 2 1 3 1).getD default).indices.length = 2 :=
  (phase2_index_safety (fun _ => 0) 2 1 3 1 (by decide)
    ((fullRun (fun _ => 0) 2 1 3 1).getD default) (by rfl)).2.2.2.2.1

/-- C8: the entire generation pipeline is a deterministic function of the
generator stream and the CLI parameters, with every draw consumed in one fixed
order: two runs whose streams agree on the (finitely many) draws the first run
consumes produce the *identical* outcome — the same batches, the same memoized
addresses, the same shuffled indices, and byte-identical traces of every
Address, SlotKey, AccountValue and SlotValue generated.  In particular two
runs with the same seed (hence the same stream, e.g. `prngStream 42`) and the
same parameters are byte-identical. -/
theorem run_determinism (f g : Nat → Nat) (n nSlots m kC : Nat) (out : RunOut)
    (hf : fullRun f n nSlots m kC = some out)
    (hagree : ∀ i, i < out.drawEnd → f i = g i) :
    fullRun g n nSlots m kC = some out := by
  obtain ⟨p1, addrs, tr1, k1, p2, tr2, k2, h1, h2, rfl⟩ := fullRun_elim hf
  have hag : AgreeBelow f g k2 := hagree
  have hm2 : (shuffleLoop f (n - 1) k1 (List.range n)).2 ≤ k2 := runBatches2_mono h2
  have hm1 : k1 ≤ (shuffleLoop f (n - 1) k1 (List.range n)).2 :=
    shuffleLoop_mono f (n - 1) k1 (List.range n)
  have h1g : runBatches1 g nSlots n kC (loopStarts n kC) [] 0 = some (p1, addrs, tr1, k1) :=
    runBatches1_agree hag h1 (le_trans hm1 hm2)
  have hsh : shuffleLoop g (n - 1) k1 (List.range n)
      = shuffleLoop f (n - 1) k1 (List.range n) :=
    shuffleLoop_agree hag (n - 1) k1 (List.range n) hm2
  have h2g : runBatches2 g nSlots (mClamp m n) kC
      (shuffleLoop f (n - 1) k1 (List.range n)).1 addrs
      (loopStarts (mClamp m n) kC) (shuffleLoop f (n - 1) k1 (List.range n)).2
      = some (p2, tr2, k2) :=
    runBatches2_agree hag h2 (Nat.le_refl k2)
  simp only [fullRun, h1g, hsh, h2g]

/-- C8 witness: a concrete run (drawEnd 41) re-run against a stream that
agrees only on the consumed prefix yet yields the identical outcome. -/
theorem run_determinism_witness :
    fullRun (fun i => if i < 41 then 0 else 99) 1 1 0 1 =
      some ((fullRun (fun _ => 0) 1 1 0 1).getD default) :=
  run_determinism (fun _ => 0) (fun i => if i < 41 then 0 else 99) 1 1 0 1
    ((fullRun (fun _ => 0) 1 1 0 1).getD default) (by rfl)
    (by
      intro i hi
      have h41 : ((fullRun (fun _ => 0) 1 1 0 1).getD default).drawEnd = 41 := by rfl
      rw [h41] at hi
      simp [hi])

/-- C9: `get_dir_size` returns 0 on a non-existent path without any failure,
the recursive sum of regular-file sizes on a directory, and the file's size on
a regular file. -/
theorem getDirSize_spec :
    get_dir_size none = 0 ∧
    (∀ e : FSEntry, get_dir_size (some e) = (regFileSizes e).sum) ∧
    (∀ es : List FSEntry, get_dir_size (some (.dir es)) = (regFileSizes (.dir es)).sum) ∧
    (∀ s : Nat, get_dir_size (some (.file s)) = s) := by
  refine ⟨rfl, ?_, ?_, fun s => rfl⟩
  · intro e
    cases e with
    | file s => simp [get_dir_size, regFileSizes]
    | other => simp [get_dir_size, regFileSizes]
    | dir es => rw [get_dir_size]; exact walkSize_eq_sum_regFileSizes (.dir es)
  · intro es
    rw [get_dir_size]
    exact walkSize_eq_sum_regFileSizes (.dir es)

/-- C5 counterexample: when `get_latest_version()` returns 0 — an existing
version, not the `(uint64_t)-1` sentinel — the driver still starts with an
absent root, contrary to the claim that any existing non-sentinel version's
root is loaded. -/
theorem initialRoot_zero_cex :
    (0 : Nat) ≠ uint64Max ∧ initialRootSpec 0 = some 0 ∧ initialRoot 0 = none := by
  refine ⟨by decide, by decide, by decide⟩

/-- C5 (amended): the driver loads the latest version's root exactly when that
version is neither 0 nor the sentinel `(uint64_t)-1`; if the latest version is
0 or the sentinel, the initial root is absent. -/
theorem initialRoot_characterization (lv : Nat) :
    (lv ≠ 0 → lv ≠ uint64Max → initialRoot lv = some lv) ∧
    (lv = 0 ∨ lv = uint64Max → initialRoot lv = none) := by
  constructor
  · intro h0 hs
    rw [initialRoot, if_pos ⟨h0, hs⟩]
  · intro h
    rw [initialRoot, if_neg]
    intro ⟨h0, hs⟩
    rcases h with h | h
    · exact h0 h
    · exact hs h

/-- C5 witness: a concrete non-zero, non-sentinel version is loaded. -/
theorem initialRoot_characterization_witness : initialRoot 7 = some 7 :=
  (initialRoot_characterization 7).1 (by decide) (by decide)

/-- C2: the scenario `nAccounts=2, kCommit=1, nSlots=0` does *not* run to
completion: the per-account slot-count draw is `r() % (nSlots * 2) = r() % 0`,
division by zero — undefined behaviour — so the very first account step (and
hence the whole run, for every draw stream) aborts into `none` in the model. -/
theorem nSlots_zero_mod_zero (f : Nat → Nat) (j k : Nat) (addrs : List ByteStr)
    (batch : List (ByteStr × AccountData)) :
    acctStep1 f 0 j k addrs batch = none ∧ fullRun f 2 0 10 1 = none := by
  have hstep : ∀ (j' k' : Nat) (addrs' : List ByteStr)
      (batch' : List (ByteStr × AccountData)),
      acctStep1 f 0 j' k' addrs' batch' = none := by
    intro j' k' addrs' batch'
    rw [acctStep1]
    simp [cmod]
  refine ⟨hstep j k addrs batch, ?_⟩
  have hb : batchLoop1 f 0 1 0 0 [] [] = none := by
    simp only [show (1 : Nat) = 0 + 1 from rfl, batchLoop1, hstep]
  have hls : loopStarts 2 1 = [0, 1] := rfl
  rw [fullRun, hls]
  simp [runBatches1, hb]

end MptBench
